import Mathlib

/-!
Verification of the RACF language-server core (lexer, structured command
model, document index) and of the ADDUSER example pipeline (lexer,
recursive-descent command builder), embedded shallowly: the source text is a
`List Char`, positions are explicit line/column counters, and every fallible
or looping routine is modelled as an executable function (with fuel where the
original loop's progress is not structural).

`Srv` embeds `src/server/racf_server.py`; `Ex` embeds
`src/examples/adduser_parser.py`.
-/

namespace Srv

/-- Token kinds of the server lexer (`TokenType` in `racf_server.py`). -/
inductive TokType where
  | COMMAND | KEYWORD | SEGMENT | LPAREN | RPAREN | STRING
  | IDENTIFIER | NUMBER | CONTINUATION | COMMENT | EOF
deriving DecidableEq, Repr

/-- A lexer token.  In the source, `end_column` is always left at its default
and `__post_init__` sets it to `column + len(value)`, so it is a derived
field here. -/
structure Tok where
  type : TokType
  value : List Char
  line : Nat
  column : Nat
deriving DecidableEq, Repr

/-- `end_column` as computed by `Token.__post_init__`. -/
def Tok.end_column (t : Tok) : Nat := t.column + t.value.length

/-- The quote character, written numerically. -/
def quoteChar : Char := Char.ofNat 39

def strsOf (xs : List String) : List (List Char) := xs.map String.toList

/-- Keys of `RACF_COMMANDS`. -/
def RACF_COMMAND_NAMES : List (List Char) := strsOf
  ["ADDUSER", "ALTUSER", "DELUSER", "LISTUSER", "PASSWORD",
   "ADDGROUP", "ALTGROUP", "DELGROUP", "LISTGRP",
   "CONNECT", "REMOVE",
   "ADDSD", "ALTDSD", "DELDSD", "LISTDSD",
   "RDEFINE", "RALTER", "RDELETE", "RLIST",
   "PERMIT", "SETROPTS", "SEARCH", "RACDCERT"]

/-- Abbreviations of `RACF_COMMANDS` in iteration order; `RACDCERT` has the
empty abbreviation, which `read_identifier` compares against unfiltered. -/
def RACF_ABBREVS : List (List Char) := strsOf
  ["AU", "ALU", "DU", "LU", "PW",
   "AG", "ALG", "DG", "LG",
   "CO", "RE",
   "AD", "ALD", "DD", "LD",
   "RDEF", "RALT", "RDEL", "RL",
   "PE", "SETR", "SR", ""]

/-- Keys of `BASE_KEYWORDS`. -/
def BASE_KEYWORD_NAMES : List (List Char) := strsOf
  ["ADSP", "NOADSP", "AUDITOR", "NOAUDITOR", "GRPACC", "NOGRPACC",
   "OIDCARD", "NOOIDCARD", "OPERATIONS", "NOOPERATIONS",
   "RESTRICTED", "NORESTRICTED", "ROAUDIT", "NOROAUDIT",
   "SPECIAL", "NOSPECIAL", "NOPASSWORD", "NOCLAUTH",
   "ADDCATEGORY", "AUTHORITY", "CLAUTH", "DATA", "DFLTGRP",
   "MODEL", "NAME", "OWNER", "PASSWORD", "PHRASE",
   "SECLABEL", "SECLEVEL", "UACC"]

/-- Keys of `SEGMENTS`. -/
def SEGMENT_NAMES_SRV : List (List Char) := strsOf
  ["CICS", "DCE", "DFP", "EIM", "KERB", "LANGUAGE", "LNOTES",
   "NDS", "NETVIEW", "OMVS", "OPERPARM", "OVM", "PROXY",
   "TSO", "WHEN", "WORKATTR"]

/-- Keys of `OMVS_KEYWORDS`. -/
def OMVS_KEYWORD_NAMES : List (List Char) := strsOf
  ["ASSIZEMAX", "AUTOUID", "UID", "SHARED", "CPUTIMEMAX",
   "FILEPROCMAX", "HOME", "MEMLIMIT", "NOMEMLIMIT",
   "MMAPAREAMAX", "PROCUSERMAX", "PROGRAM", "SHMEMMAX",
   "NOSHMEMMAX", "THREADSMAX"]

/-- Keys of `TSO_KEYWORDS`. -/
def TSO_KEYWORD_NAMES : List (List Char) := strsOf
  ["ACCTNUM", "COMMAND", "DEST", "HOLDCLASS", "JOBCLASS",
   "MAXSIZE", "MSGCLASS", "PROC", "SECLABEL", "SIZE", "UNIT", "USERDATA"]

/-- Keys of `ACCESS_LEVELS`. -/
def ACCESS_LEVEL_NAMES : List (List Char) := strsOf
  ["NONE", "READ", "UPDATE", "CONTROL", "ALTER"]

/-- Keys of `GROUP_AUTHORITIES`. -/
def GROUP_AUTHORITY_NAMES : List (List Char) := strsOf
  ["USE", "CREATE", "CONNECT", "JOIN"]

/-- Keys of `RESOURCE_CLASSES`. -/
def RESOURCE_CLASS_NAMES : List (List Char) := strsOf
  ["DATASET", "FACILITY", "PROGRAM", "TERMINAL", "SDSF", "TAPEVOL",
   "DASDVOL", "JESSPOOL", "JESJOBS", "SURROGAT", "OPERCMDS", "CONSOLE"]

/-- The extra keyword list added to `ALL_KEYWORDS` directly. -/
def EXTRA_KEYWORD_NAMES : List (List Char) := strsOf
  ["CLASS", "ID", "ACCESS", "AUDIT", "ALL", "MASK", "REFRESH",
   "HISTORY", "INTERVAL", "CLASSACT", "RACLIST", "GID", "SUPGROUP"]

/-- `ALL_KEYWORDS`: the union built in the source (duplicates are harmless
for membership; the empty abbreviation is filtered out by `if k`). -/
def ALL_KEYWORDS : List (List Char) :=
  RACF_COMMAND_NAMES ++ (RACF_ABBREVS.filter (· ≠ [])) ++ BASE_KEYWORD_NAMES ++
  SEGMENT_NAMES_SRV ++ OMVS_KEYWORD_NAMES ++ TSO_KEYWORD_NAMES ++
  ACCESS_LEVEL_NAMES ++ GROUP_AUTHORITY_NAMES ++ RESOURCE_CLASS_NAMES ++
  EXTRA_KEYWORD_NAMES

/-- Horizontal whitespace skipped by `skip_whitespace` (space and tab). -/
def hws (c : Char) : Bool := c = ' ' || c = '\t'

/-- The identifier character set of `read_identifier`
(`isalnum` plus `@#$._`), modelled on the ASCII `Char.isAlphanum`;
`identCharU` below is the Unicode-aware variant. -/
def identChar (c : Char) : Bool :=
  c.isAlphanum || c = '@' || c = '#' || c = '$' || c = '.' || c = '_'

/-- The guard in `tokenize` for entering `read_identifier`
(`isalnum` plus `@#$%` — note `%`, which `identChar` does not accept),
modelled on the ASCII `Char.isAlphanum`; `identStartU` below is the
Unicode-aware variant. -/
def identStart (c : Char) : Bool :=
  c.isAlphanum || c = '@' || c = '#' || c = '$' || c = '%'

/-- One `advance()` step's effect on (line, column). -/
def advChar (c : Char) (l k : Nat) : Nat × Nat :=
  if c = '\n' then (l + 1, 0) else (l, k + 1)

/-- Lexer state: remaining input and current line/column. -/
structure LexSt where
  rem : List Char
  line : Nat
  col : Nat
deriving DecidableEq, Repr

/-- `skip_whitespace`: consume spaces and tabs. -/
def skipWs : List Char → Nat → Nat → List Char × Nat × Nat
  | c :: rest, l, k => if hws c then skipWs rest l (k + 1) else (c :: rest, l, k)
  | [], l, k => ([], l, k)

/-- The loop of `read_string`, after the opening quote has been consumed:
returns (decoded value, remaining input, line, column). -/
def readStrGo : List Char → Nat → Nat → List Char →
    List Char × List Char × Nat × Nat
  | [], l, k, acc => (acc, [], l, k)
  | c :: rest, l, k, acc =>
    if c = quoteChar then
      match rest with
      | c2 :: rest2 =>
        if c2 = quoteChar then readStrGo rest2 l (k + 2) (acc ++ [quoteChar])
        else (acc, c2 :: rest2, l, k + 1)
      | [] => (acc, [], l, k + 1)
    else
      let p := advChar c l k
      readStrGo rest p.1 p.2 (acc ++ [c])

/-- The one-step equation of `readStrGo` in `head?`/`tail` form (the nested
match makes the auto-generated equations inconvenient for rewriting). -/
theorem readStrGo_cons (c : Char) (rest : List Char) (l k : Nat)
    (acc : List Char) :
    readStrGo (c :: rest) l k acc =
      if c = quoteChar then
        if rest.head? = some quoteChar then
          readStrGo rest.tail l (k + 2) (acc ++ [quoteChar])
        else (acc, rest, l, k + 1)
      else
        let p := advChar c l k
        readStrGo rest p.1 p.2 (acc ++ [c]) := by
  match rest with
  | [] => simp [readStrGo]
  | c2 :: rest2 =>
    by_cases h2 : c2 = quoteChar <;> simp [readStrGo, h2]

/-- The loop of `read_comment`, after `/*` has been consumed:
returns (comment text accumulated so far, remaining input, line, column). -/
def readComGo : List Char → Nat → Nat → List Char →
    List Char × List Char × Nat × Nat
  | [], l, k, acc => (acc, [], l, k)
  | c :: rest, l, k, acc =>
    if c = '*' ∧ rest.head? = some '/' then
      (acc ++ ['*', '/'], rest.tail, l, k + 2)
    else
      let p := advChar c l k
      readComGo rest p.1 p.2 (acc ++ [c])

/-- The loop of `read_identifier`: consume a maximal run of `identChar`s.
Identifier characters are never newlines, so only the column moves. -/
def readIdentGo : List Char → Nat → List Char → List Char × List Char × Nat
  | [], k, acc => (acc, [], k)
  | c :: rest, k, acc =>
    if identChar c then readIdentGo rest (k + 1) (acc ++ [c])
    else (acc, c :: rest, k)

/-- The classification performed at the end of `read_identifier`, with
`value.upper()` modelled by the length-preserving ASCII `Char.toUpper`;
`classifyWordU` below models the Unicode `upper()`, which can lengthen
the value. -/
def classifyWord (v : List Char) (l k : Nat) : Tok :=
  let upper := v.map Char.toUpper
  if upper ∈ RACF_COMMAND_NAMES then ⟨.COMMAND, upper, l, k⟩
  else if upper ∈ RACF_ABBREVS then ⟨.COMMAND, upper, l, k⟩
  else if upper ∈ SEGMENT_NAMES_SRV then ⟨.SEGMENT, upper, l, k⟩
  else if upper ∈ ALL_KEYWORDS then ⟨.KEYWORD, upper, l, k⟩
  else if v ≠ [] ∧ v.all Char.isDigit then ⟨.NUMBER, v, l, k⟩
  else ⟨.IDENTIFIER, upper, l, k⟩

/-- One iteration of the `tokenize` loop: `none` when the input is exhausted
(the loop exits), otherwise the optionally emitted token and the new state. -/
def lexStep (st : LexSt) : Option (Option Tok × LexSt) :=
  match st.rem with
  | [] => none
  | c :: rest =>
    if hws c then
      match skipWs st.rem st.line st.col with
      | (rem2, l2, k2) => some (none, ⟨rem2, l2, k2⟩)
    else if c = '\n' then
      some (none, ⟨rest, st.line + 1, 0⟩)
    else if c = '/' ∧ rest.head? = some '*' then
      match readComGo rest.tail st.line (st.col + 2) ['/', '*'] with
      | (v, rem2, l2, k2) =>
        some (some ⟨.COMMENT, v, st.line, st.col⟩, ⟨rem2, l2, k2⟩)
    else if c = '-' then
      let stripped := rest.dropWhile hws
      if stripped = [] ∨ stripped.head? = some '\n' then
        some (some ⟨.CONTINUATION, ['-'], st.line, st.col⟩,
              ⟨rest, st.line, st.col + 1⟩)
      else
        some (none, ⟨rest, st.line, st.col + 1⟩)
    else if c = '(' then
      some (some ⟨.LPAREN, ['('], st.line, st.col⟩, ⟨rest, st.line, st.col + 1⟩)
    else if c = ')' then
      some (some ⟨.RPAREN, [')'], st.line, st.col⟩, ⟨rest, st.line, st.col + 1⟩)
    else if c = quoteChar then
      match readStrGo rest st.line (st.col + 1) [] with
      | (v, rem2, l2, k2) =>
        some (some ⟨.STRING, v, st.line, st.col⟩, ⟨rem2, l2, k2⟩)
    else if identStart c then
      match readIdentGo st.rem st.col [] with
      | (v, rem2, k2) =>
        some (some (classifyWord v st.line st.col), ⟨rem2, st.line, k2⟩)
    else
      some (none, ⟨rest, st.line, st.col + 1⟩)

/-- The `tokenize` loop, fuelled: `none` means the fuel ran out (which, for
this lexer, can really happen — see the `%` divergence below). -/
def tokenizeFuel : Nat → LexSt → List Tok → Option (List Tok)
  | 0, _, _ => none
  | fuel + 1, st, acc =>
    match lexStep st with
    | none => some (acc ++ [⟨.EOF, [], st.line, st.col⟩])
    | some (t?, st') => tokenizeFuel fuel st' (acc ++ t?.toList)

/-- `Lexer(source).tokenize()`, with the canonical fuel `length + 1`
(each loop iteration of a terminating run consumes at least one character). -/
def tokenize (src : List Char) : Option (List Tok) :=
  tokenizeFuel (src.length + 1) ⟨src, 0, 0⟩ []

/-- Python's Unicode-aware `str.isalnum` on the character repertoire this
development exercises: exact on ASCII and on U+00DF (`'ß'`), which Python
counts as alphanumeric while the ASCII-only `Char.isAlphanum` does not. -/
def pyIsAlnum (c : Char) : Bool := c.isAlphanum || c = 'ß'

/-- Python's Unicode-aware `str.upper`, per character, on the same
repertoire: exact on ASCII and on U+00DF, whose uppercase is the
two-character string `"SS"` — the length-increasing case. -/
def pyUpper (c : Char) : List Char :=
  if c = 'ß' then ['S', 'S'] else [c.toUpper]

/-- `str.upper` of a whole word: concatenation of the per-character
uppercase expansions. -/
def pyUpperStr : List Char → List Char
  | [] => []
  | c :: rest => pyUpper c ++ pyUpperStr rest

/-- `read_identifier`'s character set under Python string semantics
(Unicode `isalnum` plus `@#$._`). -/
def identCharU (c : Char) : Bool :=
  pyIsAlnum c || c = '@' || c = '#' || c = '$' || c = '.' || c = '_'

/-- The `tokenize` guard for entering `read_identifier` under Python
string semantics (Unicode `isalnum` plus `@#$%`). -/
def identStartU (c : Char) : Bool :=
  pyIsAlnum c || c = '@' || c = '#' || c = '$' || c = '%'

/-- The loop of `read_identifier` under Python string semantics. -/
def readIdentGoU : List Char → Nat → List Char → List Char × List Char × Nat
  | [], k, acc => (acc, [], k)
  | c :: rest, k, acc =>
    if identCharU c then readIdentGoU rest (k + 1) (acc ++ [c])
    else (acc, c :: rest, k)

/-- The classification at the end of `read_identifier` under Python string
semantics: the stored value is the Unicode uppercase of the consumed
characters, which can be longer than the consumed source run — and
`end_column = column + len(value)` is computed from this stored value. -/
def classifyWordU (v : List Char) (l k : Nat) : Tok :=
  let upper := pyUpperStr v
  if upper ∈ RACF_COMMAND_NAMES then ⟨.COMMAND, upper, l, k⟩
  else if upper ∈ RACF_ABBREVS then ⟨.COMMAND, upper, l, k⟩
  else if upper ∈ SEGMENT_NAMES_SRV then ⟨.SEGMENT, upper, l, k⟩
  else if upper ∈ ALL_KEYWORDS then ⟨.KEYWORD, upper, l, k⟩
  else if v ≠ [] ∧ v.all Char.isDigit then ⟨.NUMBER, v, l, k⟩
  else ⟨.IDENTIFIER, upper, l, k⟩

/-- One iteration of the `tokenize` loop under Python string semantics:
identical to `lexStep` except that the identifier guard, the identifier
character set and the uppercasing are Unicode-aware. -/
def lexStepU (st : LexSt) : Option (Option Tok × LexSt) :=
  match st.rem with
  | [] => none
  | c :: rest =>
    if hws c then
      match skipWs st.rem st.line st.col with
      | (rem2, l2, k2) => some (none, ⟨rem2, l2, k2⟩)
    else if c = '\n' then
      some (none, ⟨rest, st.line + 1, 0⟩)
    else if c = '/' ∧ rest.head? = some '*' then
      match readComGo rest.tail st.line (st.col + 2) ['/', '*'] with
      | (v, rem2, l2, k2) =>
        some (some ⟨.COMMENT, v, st.line, st.col⟩, ⟨rem2, l2, k2⟩)
    else if c = '-' then
      let stripped := rest.dropWhile hws
      if stripped = [] ∨ stripped.head? = some '\n' then
        some (some ⟨.CONTINUATION, ['-'], st.line, st.col⟩,
              ⟨rest, st.line, st.col + 1⟩)
      else
        some (none, ⟨rest, st.line, st.col + 1⟩)
    else if c = '(' then
      some (some ⟨.LPAREN, ['('], st.line, st.col⟩, ⟨rest, st.line, st.col + 1⟩)
    else if c = ')' then
      some (some ⟨.RPAREN, [')'], st.line, st.col⟩, ⟨rest, st.line, st.col + 1⟩)
    else if c = quoteChar then
      match readStrGo rest st.line (st.col + 1) [] with
      | (v, rem2, l2, k2) =>
        some (some ⟨.STRING, v, st.line, st.col⟩, ⟨rem2, l2, k2⟩)
    else if identStartU c then
      match readIdentGoU st.rem st.col [] with
      | (v, rem2, k2) =>
        some (some (classifyWordU v st.line st.col), ⟨rem2, st.line, k2⟩)
    else
      some (none, ⟨rest, st.line, st.col + 1⟩)

/-- The `tokenize` loop under Python string semantics, fuelled. -/
def tokenizeFuelU : Nat → LexSt → List Tok → Option (List Tok)
  | 0, _, _ => none
  | fuel + 1, st, acc =>
    match lexStepU st with
    | none => some (acc ++ [⟨.EOF, [], st.line, st.col⟩])
    | some (t?, st') => tokenizeFuelU fuel st' (acc ++ t?.toList)

/-- `Lexer(source).tokenize()` under Python string semantics. -/
def tokenizeU (src : List Char) : Option (List Tok) :=
  tokenizeFuelU (src.length + 1) ⟨src, 0, 0⟩ []

/-- `RACFCommand`: the structured-value containers (`arguments`, `keywords`,
`segments`, `flags`) are dataclass defaults; `RACFDocument.parse` never
assigns into them, so their element types are only carried for shape. -/
structure RACFCommand where
  name : List Char
  line : Nat
  end_line : Nat
  arguments : List (List Char)
  keywords : List (List Char × List Char)
  segments : List (List Char × List (List Char × List Char))
  flags : List (List Char)
deriving DecidableEq, Repr

/-- The inner scan of `RACFDocument.parse`: starting from the accumulator
`e` (the command token's own line), walk tokens until the next `COMMAND`
or `EOF`, recording each walked token's line as the running `end_line`. -/
def scanEnd : List Tok → Nat → Nat
  | [], e => e
  | t :: rest, e =>
    if t.type = .COMMAND ∨ t.type = .EOF then e else scanEnd rest t.line

/-- The outer loop of `RACFDocument.parse`: one `RACFCommand` per `COMMAND`
token, with `end_line` from the inner scan and all structured fields left at
their empty defaults. -/
def buildCommands : List Tok → List RACFCommand
  | [] => []
  | t :: rest =>
    if t.type = .COMMAND then
      ⟨t.value, t.line, scanEnd rest t.line, [], [], [], []⟩ :: buildCommands rest
    else buildCommands rest

/-- `RACFDocument.get_token_at_position`: first token in stream order whose
line matches and whose `[column, end_column)` contains the character. -/
def get_token_at_position (ts : List Tok) (line ch : Nat) : Option Tok :=
  match ts with
  | [] => none
  | t :: rest =>
    if t.line = line ∧ t.column ≤ ch ∧ ch < t.end_column then some t
    else get_token_at_position rest line ch

/-- `RACFDocument.get_command_at_line`: first command whose
`[line, end_line]` span contains the queried line. -/
def get_command_at_line (cs : List RACFCommand) (line : Nat) : Option RACFCommand :=
  match cs with
  | [] => none
  | c :: rest =>
    if c.line ≤ line ∧ line ≤ c.end_line then some c
    else get_command_at_line rest line

/-- Quote-doubling of the embedded-quote escape convention. -/
def dquote : List Char → List Char
  | [] => []
  | c :: rest =>
    if c = quoteChar then quoteChar :: quoteChar :: dquote rest
    else c :: dquote rest

theorem tokenizeFuel_succ (fuel : Nat) (st : LexSt) (acc : List Tok) :
    tokenizeFuel (fuel + 1) st acc =
      match lexStep st with
      | none => some (acc ++ [⟨.EOF, [], st.line, st.col⟩])
      | some (t?, st') => tokenizeFuel fuel st' (acc ++ t?.toList) := rfl

theorem lexStep_percent (l k : Nat) :
    lexStep ⟨['%'], l, k⟩ = some (some ⟨.COMMAND, [], l, k⟩, ⟨['%'], l, k⟩) := by
  rfl

theorem tokenizeFuel_percent_none :
    ∀ fuel acc l k, tokenizeFuel fuel ⟨['%'], l, k⟩ acc = none := by
  intro fuel
  induction fuel with
  | zero => intro acc l k; rfl
  | succ n ih =>
    intro acc l k
    rw [tokenizeFuel_succ, lexStep_percent]
    exact ih _ _ _

theorem lexStep_quote (rest : List Char) (l k : Nat) :
    lexStep ⟨quoteChar :: rest, l, k⟩ =
      (match readStrGo rest l (k + 1) [] with
       | (v, rem2, l2, k2) =>
         some (some ⟨.STRING, v, l, k⟩, ⟨rem2, l2, k2⟩)) := by
  have h : ¬(quoteChar = '/' ∧ rest.head? = some '*') := by
    rintro ⟨h, -⟩; exact absurd h (by decide)
  simp [lexStep, h, (by decide : hws quoteChar = false),
    (by decide : ¬quoteChar = '\n'), (by decide : ¬quoteChar = '-'),
    (by decide : ¬quoteChar = '('), (by decide : ¬quoteChar = ')')]

theorem readStrGo_dquote (S : List Char) : ∀ l k acc,
    ∃ l' k', readStrGo (dquote S ++ [quoteChar]) l k acc = (acc ++ S, [], l', k') := by
  induction S with
  | nil =>
    intro l k acc
    exact ⟨l, k + 1, by simp [dquote, readStrGo_cons]⟩
  | cons c S ih =>
    intro l k acc
    by_cases hc : c = quoteChar
    · subst hc
      obtain ⟨l', k', h⟩ := ih l (k + 2) (acc ++ [quoteChar])
      refine ⟨l', k', ?_⟩
      simp [dquote, readStrGo_cons]
      rw [h]
      simp
    · obtain ⟨l', k', h⟩ := ih (advChar c l k).1 (advChar c l k).2 (acc ++ [c])
      refine ⟨l', k', ?_⟩
      simp [dquote, readStrGo_cons, hc]
      rw [h]
      simp

end Srv

/-- C3: the claim says `tokenize` always terminates with an `EndOfInput`
token last and never raises.  The server lexer's `tokenize` guard admits `%`
as an identifier start, but `read_identifier` consumes no characters for it,
so on the source `"%"` the loop emits an empty-valued token (classified as a
`COMMAND` through `RACDCERT`'s empty abbreviation) forever, never advancing:
one loop iteration returns to the identical lexer state, and no amount of
fuel yields a finished token list. -/
theorem Srv.tokenize_stuck_on_percent :
    (∀ l k, Srv.lexStep ⟨['%'], l, k⟩ =
        some (some ⟨.COMMAND, [], l, k⟩, ⟨['%'], l, k⟩)) ∧
    (∀ fuel acc l k, Srv.tokenizeFuel fuel ⟨['%'], l, k⟩ acc = none) ∧
    Srv.tokenize ['%'] = none :=
  ⟨Srv.lexStep_percent, Srv.tokenizeFuel_percent_none,
   Srv.tokenizeFuel_percent_none _ _ _ _⟩

/-- C6: for any string S, lexing the literal built as quote + (S with each
internal quote doubled) + quote yields exactly one STRING token whose value
is S itself (original case preserved, a doubled quote decoding to a single
quote character), followed by the EOF token.  In particular for S without
quotes the doubling is the identity and the decoded value equals S. -/
theorem Srv.read_string_decodes_doubled_quotes (S : List Char) :
    ∃ l k, Srv.tokenize (Srv.quoteChar :: (Srv.dquote S ++ [Srv.quoteChar])) =
      some [⟨.STRING, S, 0, 0⟩, ⟨.EOF, [], l, k⟩] := by
  obtain ⟨l', k', hgo⟩ := Srv.readStrGo_dquote S 0 1 []
  refine ⟨l', k', ?_⟩
  rw [Srv.tokenize,
    show (Srv.quoteChar :: (Srv.dquote S ++ [Srv.quoteChar])).length + 1
      = ((Srv.dquote S).length + 1) + 1 + 1 by simp,
    Srv.tokenizeFuel_succ, Srv.lexStep_quote]
  simp only [hgo]
  rw [Srv.tokenizeFuel_succ]
  rfl

namespace Srv

/-- Lexicographic order on (line, column) positions. -/
def posLe (a b : Nat × Nat) : Prop := a.1 < b.1 ∨ (a.1 = b.1 ∧ a.2 ≤ b.2)

theorem posLe_refl (a : Nat × Nat) : posLe a a := Or.inr ⟨rfl, le_refl _⟩

theorem posLe_trans {a b c : Nat × Nat} (h1 : posLe a b) (h2 : posLe b c) :
    posLe a c := by
  rcases h1 with h1 | ⟨h1, h1'⟩ <;> rcases h2 with h2 | ⟨h2, h2'⟩ <;>
    simp only [posLe] <;> omega

theorem skipWs_eq : ∀ (rem : List Char) (l k : Nat),
    skipWs rem l k = (rem.dropWhile hws, l, k + (rem.takeWhile hws).length) := by
  intro rem
  induction rem with
  | nil => intro l k; simp [skipWs]
  | cons c rest ih =>
    intro l k
    by_cases h : hws c <;>
      simp [skipWs, h, List.takeWhile_cons, List.dropWhile_cons, ih] <;> omega

theorem readIdentGo_eq : ∀ (rem : List Char) (k : Nat) (acc : List Char),
    readIdentGo rem k acc =
      (acc ++ rem.takeWhile identChar, rem.dropWhile identChar,
       k + (rem.takeWhile identChar).length) := by
  intro rem
  induction rem with
  | nil => intro k acc; simp [readIdentGo]
  | cons c rest ih =>
    intro k acc
    by_cases h : identChar c <;>
      simp [readIdentGo, h, List.takeWhile_cons, List.dropWhile_cons, ih] <;>
      omega

theorem readComGo_pos : ∀ (rem : List Char) (l k : Nat) (acc : List Char),
    ∃ w rem' l' k', readComGo rem l k acc = (acc ++ w, rem', l', k') ∧
      posLe (l, k + w.length) (l', k') := by
  intro rem
  induction rem with
  | nil => intro l k acc; exact ⟨[], [], l, k, by simp [readComGo], posLe_refl _⟩
  | cons c rest ih =>
    intro l k acc
    by_cases h : c = '*' ∧ rest.head? = some '/'
    · exact ⟨['*', '/'], rest.tail, l, k + 2, by simp [readComGo, h], posLe_refl _⟩
    · by_cases hn : c = '\n'
      · subst hn
        obtain ⟨w, rem', l', k', heq, hle⟩ := ih (l + 1) 0 (acc ++ ['\n'])
        refine ⟨'\n' :: w, rem', l', k', ?_, ?_⟩
        · simp [readComGo, h, advChar, heq]
        · rcases hle with hle | ⟨hle, -⟩ <;> exact Or.inl (by omega)
      · obtain ⟨w, rem', l', k', heq, hle⟩ := ih l (k + 1) (acc ++ [c])
        refine ⟨c :: w, rem', l', k', ?_, ?_⟩
        · simp [readComGo, h, advChar, hn, heq]
        · rcases hle with hle | ⟨hle, hle'⟩
          · exact Or.inl hle
          · exact Or.inr ⟨hle, by simp; omega⟩

theorem readStrGo_pos_aux : ∀ (n : Nat) (rem : List Char), rem.length ≤ n →
    ∀ (l k : Nat) (acc : List Char),
    ∃ w rem' l' k', readStrGo rem l k acc = (acc ++ w, rem', l', k') ∧
      posLe (l, k + w.length) (l', k') := by
  intro n
  induction n with
  | zero =>
    intro rem hlen l k acc
    rw [List.length_eq_zero.mp (Nat.le_zero.mp hlen)]
    exact ⟨[], [], l, k, by simp [readStrGo], posLe_refl _⟩
  | succ n ih =>
    rintro (_ | ⟨c, rest⟩) hlen l k acc
    · exact ⟨[], [], l, k, by simp [readStrGo], posLe_refl _⟩
    · simp only [List.length_cons, Nat.succ_le_succ_iff] at hlen
      by_cases hc : c = quoteChar
      · by_cases hh : rest.head? = some quoteChar
        · obtain ⟨w, rem', l', k', heq, hle⟩ :=
            ih rest.tail (by rw [List.length_tail]; omega) l (k + 2)
              (acc ++ [quoteChar])
          refine ⟨quoteChar :: w, rem', l', k', ?_, ?_⟩
          · simp [readStrGo_cons, hc, hh, heq]
          · rcases hle with hle | ⟨hle, hle'⟩
            · exact Or.inl hle
            · exact Or.inr ⟨hle, by simp at hle' ⊢; omega⟩
        · exact ⟨[], rest, l, k + 1,
            by simp [readStrGo_cons, hc, hh], Or.inr ⟨rfl, by simp⟩⟩
      · by_cases hn : c = '\n'
        · subst hn
          obtain ⟨w, rem', l', k', heq, hle⟩ := ih rest hlen (l + 1) 0 (acc ++ ['\n'])
          refine ⟨'\n' :: w, rem', l', k', ?_, ?_⟩
          · simp [readStrGo_cons, hc, advChar, heq]
          · rcases hle with hle | ⟨hle, -⟩ <;> exact Or.inl (by omega)
        · obtain ⟨w, rem', l', k', heq, hle⟩ := ih rest hlen l (k + 1) (acc ++ [c])
          refine ⟨c :: w, rem', l', k', ?_, ?_⟩
          · simp [readStrGo_cons, hc, advChar, hn, heq]
          · rcases hle with hle | ⟨hle, hle'⟩
            · exact Or.inl hle
            · exact Or.inr ⟨hle, by simp at hle' ⊢; omega⟩

theorem readStrGo_pos (rem : List Char) (l k : Nat) (acc : List Char) :
    ∃ w rem' l' k', readStrGo rem l k acc = (acc ++ w, rem', l', k') ∧
      posLe (l, k + w.length) (l', k') :=
  readStrGo_pos_aux rem.length rem le_rfl l k acc

theorem classifyWord_shape (v : List Char) (l k : Nat) :
    (classifyWord v l k).line = l ∧ (classifyWord v l k).column = k ∧
    (classifyWord v l k).value.length = v.length := by
  simp only [classifyWord]
  repeat' split
  all_goals simp

theorem lexStep_spec {st : LexSt} {ot : Option Tok} {st' : LexSt}
    (h : lexStep st = some (ot, st')) :
    posLe (st.line, st.col) (st'.line, st'.col) ∧
    ∀ t, ot = some t → t.line = st.line ∧ t.column = st.col ∧
      posLe (t.line, t.end_column) (st'.line, st'.col) := by
  obtain ⟨rem, l, k⟩ := st
  match rem with
  | [] => simp [lexStep] at h
  | c :: rest =>
    simp only [lexStep] at h
    split_ifs at h with h1 h2 h3 h4 h5 h6 h7 h8 h9
    · -- whitespace skip
      simp only [skipWs_eq] at h
      obtain ⟨rfl, rfl⟩ := Prod.mk.injEq .. ▸ (Option.some.inj h)
      dsimp only
      exact ⟨Or.inr ⟨rfl, by simp⟩, by rintro t ⟨⟩⟩
    · -- newline
      obtain ⟨rfl, rfl⟩ := Prod.mk.injEq .. ▸ (Option.some.inj h)
      dsimp only
      exact ⟨Or.inl (by simp), by rintro t ⟨⟩⟩
    · -- comment
      obtain ⟨w, rem', l', k', heq, hle⟩ := readComGo_pos rest.tail l (k + 2) ['/', '*']
      simp only [heq] at h
      obtain ⟨rfl, rfl⟩ := Prod.mk.injEq .. ▸ (Option.some.inj h)
      dsimp only
      refine ⟨posLe_trans (b := (l, k + 2 + w.length)) (Or.inr ⟨rfl, by omega⟩) hle, ?_⟩
      rintro t ht
      obtain rfl := Option.some.inj ht
      refine ⟨rfl, rfl, ?_⟩
      simp only [Tok.end_column]
      have he : k + (['/', '*'] ++ w).length = k + 2 + w.length := by simp; omega
      rw [he]
      exact hle
    · -- continuation token
      obtain ⟨rfl, rfl⟩ := Prod.mk.injEq .. ▸ (Option.some.inj h)
      dsimp only
      refine ⟨Or.inr ⟨rfl, by omega⟩, ?_⟩
      rintro t ht
      obtain rfl := Option.some.inj ht
      exact ⟨rfl, rfl, Or.inr ⟨rfl, by simp [Tok.end_column]⟩⟩
    · -- dash skipped
      obtain ⟨rfl, rfl⟩ := Prod.mk.injEq .. ▸ (Option.some.inj h)
      dsimp only
      exact ⟨Or.inr ⟨rfl, by omega⟩, by rintro t ⟨⟩⟩
    · -- left paren
      obtain ⟨rfl, rfl⟩ := Prod.mk.injEq .. ▸ (Option.some.inj h)
      dsimp only
      refine ⟨Or.inr ⟨rfl, by omega⟩, ?_⟩
      rintro t ht
      obtain rfl := Option.some.inj ht
      exact ⟨rfl, rfl, Or.inr ⟨rfl, by simp [Tok.end_column]⟩⟩
    · -- right paren
      obtain ⟨rfl, rfl⟩ := Prod.mk.injEq .. ▸ (Option.some.inj h)
      dsimp only
      refine ⟨Or.inr ⟨rfl, by omega⟩, ?_⟩
      rintro t ht
      obtain rfl := Option.some.inj ht
      exact ⟨rfl, rfl, Or.inr ⟨rfl, by simp [Tok.end_column]⟩⟩
    · -- string literal
      obtain ⟨w, rem', l', k', heq, hle⟩ := readStrGo_pos rest l (k + 1) []
      simp only [List.nil_append] at heq
      simp only [heq] at h
      obtain ⟨rfl, rfl⟩ := Prod.mk.injEq .. ▸ (Option.some.inj h)
      dsimp only
      refine ⟨posLe_trans (b := (l, k + 1 + w.length)) (Or.inr ⟨rfl, by omega⟩) hle, ?_⟩
      rintro t ht
      obtain rfl := Option.some.inj ht
      refine ⟨rfl, rfl, ?_⟩
      refine posLe_trans (b := (l, k + 1 + w.length)) ?_ hle
      exact Or.inr ⟨rfl, by simp [Tok.end_column]⟩
    · -- identifier / keyword / number
      simp only [readIdentGo_eq, List.nil_append] at h
      obtain ⟨rfl, rfl⟩ := Prod.mk.injEq .. ▸ (Option.some.inj h)
      dsimp only
      obtain ⟨hl, hk, hv⟩ := classifyWord_shape
        (((c :: rest).takeWhile identChar)) l k
      refine ⟨Or.inr ⟨rfl, by omega⟩, ?_⟩
      rintro t ht
      obtain rfl := Option.some.inj ht
      refine ⟨hl, hk, ?_⟩
      rw [Tok.end_column, hl, hk, hv]
      exact Or.inr ⟨rfl, by simp⟩
    · -- unknown character skipped
      obtain ⟨rfl, rfl⟩ := Prod.mk.injEq .. ▸ (Option.some.inj h)
      dsimp only
      exact ⟨Or.inr ⟨rfl, by omega⟩, by rintro t ⟨⟩⟩

end Srv

namespace Srv

/-- Stream ordering between tokens: the first token's end position is at or
before the second token's start position. -/
def tokRel (a b : Tok) : Prop := posLe (a.line, a.end_column) (b.line, b.column)

theorem tokRel_trans {a b c : Tok} (h1 : tokRel a b) (h2 : tokRel b c) :
    tokRel a c := by
  have hb : posLe (b.line, b.column) (b.line, b.end_column) :=
    Or.inr ⟨rfl, by simp [Tok.end_column]⟩
  exact posLe_trans (posLe_trans h1 hb) h2

instance : IsTrans Tok tokRel := ⟨fun _ _ _ => tokRel_trans⟩

theorem mem_of_getLast? {α : Type} {l : List α} {x : α}
    (h : x ∈ l.getLast?) : x ∈ l := by
  obtain ⟨h', rfl⟩ := List.mem_getLast?_eq_getLast h
  exact List.getLast_mem h'

/-- The emitted token stream is ordered: every token ends at or before the
next one starts. -/
theorem tokenizeFuel_chain : ∀ (fuel : Nat) (st : LexSt) (acc ts : List Tok),
    tokenizeFuel fuel st acc = some ts →
    (∀ t ∈ acc, posLe (t.line, t.end_column) (st.line, st.col)) →
    acc.Chain' tokRel → ts.Chain' tokRel := by
  intro fuel
  induction fuel with
  | zero => intro st acc ts h; simp [tokenizeFuel] at h
  | succ n ih =>
    intro st acc ts h hacc hchain
    rw [tokenizeFuel_succ] at h
    cases hstep : lexStep st with
    | none =>
      rw [hstep] at h
      obtain rfl := Option.some.inj h
      refine List.chain'_append.mpr ⟨hchain, List.chain'_singleton _, ?_⟩
      intro x hx y hy
      simp only [List.head?_cons, Option.mem_def, Option.some.injEq] at hy
      subst hy
      exact hacc x (mem_of_getLast? hx)
    | some p =>
      obtain ⟨ot, st'⟩ := p
      rw [hstep] at h
      have hspec := lexStep_spec hstep
      cases ot with
      | none =>
        simp only [Option.toList, List.append_nil] at h
        exact ih st' acc ts h
          (fun t ht => posLe_trans (hacc t ht) hspec.1) hchain
      | some t =>
        simp only [Option.toList] at h
        obtain ⟨ht1, ht2, ht3⟩ := hspec.2 t rfl
        apply ih st' (acc ++ [t]) ts h
        · intro u hu
          rcases List.mem_append.mp hu with hu | hu
          · exact posLe_trans (hacc u hu) hspec.1
          · simp only [List.mem_singleton] at hu
            subst hu
            exact ht3
        · refine List.chain'_append.mpr ⟨hchain, List.chain'_singleton _, ?_⟩
          intro x hx y hy
          simp only [List.head?_cons, Option.mem_def, Option.some.injEq] at hy
          subst hy
          rw [tokRel, ht1, ht2]
          exact hacc x (mem_of_getLast? hx)

theorem tokenize_chain {src : List Char} {ts : List Tok}
    (h : tokenize src = some ts) : ts.Chain' tokRel :=
  tokenizeFuel_chain _ _ [] ts h (by simp) (by simp)

/-- A token covers position (line, ch) exactly when the
`get_token_at_position` test accepts it. -/
def covers (t : Tok) (line ch : Nat) : Prop :=
  t.line = line ∧ t.column ≤ ch ∧ ch < t.end_column

theorem covers_unique {ts : List Tok} (hp : ts.Pairwise tokRel)
    {t1 t2 : Tok} {line ch : Nat} (h1 : t1 ∈ ts) (h2 : t2 ∈ ts)
    (hc1 : covers t1 line ch) (hc2 : covers t2 line ch) : t1 = t2 := by
  induction ts with
  | nil => cases h1
  | cons x rest ih =>
    obtain ⟨hx, hrest⟩ := List.pairwise_cons.mp hp
    have key : ∀ u ∈ rest, covers u line ch → ¬covers x line ch := by
      intro u hu hcu hcx
      have hr := hx u hu
      rw [tokRel] at hr
      obtain ⟨e1, e2, e3⟩ := hcx
      obtain ⟨f1, f2, f3⟩ := hcu
      rcases hr with hr | ⟨hr, hr'⟩
      · omega
      · omega
    rcases List.mem_cons.mp h1 with rfl | h1' <;>
      rcases List.mem_cons.mp h2 with rfl | h2'
    · rfl
    · exact absurd hc1 (key t2 h2' hc2)
    · exact absurd hc2 (key t1 h1' hc1)
    · exact ih hrest h1' h2'

theorem get_token_sound {ts : List Tok} {line ch : Nat} {t : Tok}
    (h : get_token_at_position ts line ch = some t) :
    t ∈ ts ∧ covers t line ch := by
  induction ts with
  | nil => simp [get_token_at_position] at h
  | cons x rest ih =>
    rw [get_token_at_position] at h
    split_ifs at h with hcov
    · obtain rfl := Option.some.inj h
      exact ⟨List.mem_cons_self _ _, hcov⟩
    · obtain ⟨hm, hc⟩ := ih h
      exact ⟨List.mem_cons_of_mem _ hm, hc⟩

theorem get_token_none {ts : List Tok} {line ch : Nat}
    (h : get_token_at_position ts line ch = none) :
    ∀ t ∈ ts, ¬covers t line ch := by
  induction ts with
  | nil => intro t ht; cases ht
  | cons x rest ih =>
    rw [get_token_at_position] at h
    split_ifs at h with hcov
    · intro t ht
      rcases List.mem_cons.mp ht with rfl | ht'
      · exact hcov
      · exact ih h t ht'

end Srv

/-- Span-coverage uniqueness in the length-preserving model: for any
source whose tokenization completes, every (line, column) position is
covered by at most one token's `[column, end_column)` span on its line,
and `get_token_at_position` returns exactly the covering token, or `None`
when no token covers the position. Under Python string semantics this
fails (see the Unicode divergence below): it holds exactly because this
model's `Char.toUpper` preserves length, which pins the program's overlap
on the derivation of `end_column` from the uppercased value. -/
theorem Srv.token_position_lookup_exact {src : List Char} {ts : List Srv.Tok}
    (h : Srv.tokenize src = some ts) :
    (∀ line ch t1 t2, t1 ∈ ts → t2 ∈ ts → Srv.covers t1 line ch →
      Srv.covers t2 line ch → t1 = t2) ∧
    (∀ line ch t, Srv.get_token_at_position ts line ch = some t ↔
      t ∈ ts ∧ Srv.covers t line ch) := by
  have hp : ts.Pairwise Srv.tokRel :=
    List.chain'_iff_pairwise.mp (Srv.tokenize_chain h)
  refine ⟨fun line ch t1 t2 h1 h2 hc1 hc2 =>
    Srv.covers_unique hp h1 h2 hc1 hc2, fun line ch t => ⟨?_, ?_⟩⟩
  · exact fun hg => Srv.get_token_sound hg
  · rintro ⟨hm, hc⟩
    cases hgot : Srv.get_token_at_position ts line ch with
    | none => exact absurd hc (Srv.get_token_none hgot t hm)
    | some u =>
      obtain ⟨hum, huc⟩ := Srv.get_token_sound hgot
      rw [Srv.covers_unique hp hum hm huc hc]

/-- The coverage-uniqueness lemma at the concrete document `"AU X"`,
querying position (0, 3) inside the identifier `X`. -/
theorem Srv.token_position_lookup_exact_witness :
    Srv.get_token_at_position
      [⟨.COMMAND, "AU".toList, 0, 0⟩, ⟨.IDENTIFIER, "X".toList, 0, 3⟩,
       ⟨.EOF, [], 0, 4⟩] 0 3 =
      some ⟨.IDENTIFIER, "X".toList, 0, 3⟩ := by
  have h : Srv.tokenize "AU X".toList =
      some [⟨.COMMAND, "AU".toList, 0, 0⟩, ⟨.IDENTIFIER, "X".toList, 0, 3⟩,
            ⟨.EOF, [], 0, 4⟩] := by rfl
  exact ((Srv.token_position_lookup_exact h).2 0 3 _).mpr
    ⟨by decide, by decide, by decide, by decide⟩

/-- C4: the claim fails on the program. Python's `isalnum` admits `'ß'`
into identifiers, `upper()` lengthens it (`'ß'.upper() = "SS"`), and
`end_column = column + len(value)` is computed from the stored uppercased
value: tokenizing the source `"ß("` under Python string semantics yields
an IDENTIFIER token valued `SS` spanning `[0, 2)` and an LPAREN token
spanning `[1, 2)` on the same line, so position (0, 1) lies under two
distinct token spans and `get_token_at_position` returns the earlier
token, not a unique cover. -/
theorem Srv.token_position_overlap_unicode :
    Srv.tokenizeU "ß(".toList =
      some [⟨.IDENTIFIER, "SS".toList, 0, 0⟩, ⟨.LPAREN, "(".toList, 0, 1⟩,
            ⟨.EOF, [], 0, 2⟩] ∧
    Srv.covers ⟨.IDENTIFIER, "SS".toList, 0, 0⟩ 0 1 ∧
    Srv.covers ⟨.LPAREN, "(".toList, 0, 1⟩ 0 1 ∧
    (⟨.IDENTIFIER, "SS".toList, 0, 0⟩ : Srv.Tok) ≠
      ⟨.LPAREN, "(".toList, 0, 1⟩ ∧
    Srv.get_token_at_position
      [⟨.IDENTIFIER, "SS".toList, 0, 0⟩, ⟨.LPAREN, "(".toList, 0, 1⟩,
       ⟨.EOF, [], 0, 2⟩] 0 1 = some ⟨.IDENTIFIER, "SS".toList, 0, 0⟩ :=
  ⟨by rfl, ⟨rfl, by decide, by decide⟩, ⟨rfl, by decide, by decide⟩,
   by decide, by rfl⟩

namespace Srv

theorem tokenize_line_mono {src : List Char} {ts : List Tok}
    (h : tokenize src = some ts) :
    ts.Pairwise (fun a b => a.line ≤ b.line) := by
  have := List.chain'_iff_pairwise.mp (tokenize_chain h)
  exact this.imp (fun hr => by
    rcases hr with hr | ⟨hr, -⟩
    · omega
    · omega)

theorem buildCommands_head_line : ∀ (l : List Tok) (c : RACFCommand),
    (buildCommands l).head? = some c →
    ∃ t ∈ l, t.type = .COMMAND ∧ c.line = t.line := by
  intro l
  induction l with
  | nil => intro c hc; simp [buildCommands] at hc
  | cons t rest ih =>
    intro c hc
    rw [buildCommands] at hc
    split_ifs at hc with ht
    · simp only [List.head?_cons, Option.some.injEq] at hc
      exact ⟨t, List.mem_cons_self _ _, ht, by rw [← hc]⟩
    · obtain ⟨u, hu, hut, hcl⟩ := ih c hc
      exact ⟨u, List.mem_cons_of_mem _ hu, hut, hcl⟩

theorem scanEnd_bounds : ∀ (l : List Tok) (e : Nat),
    l.Pairwise (fun a b => a.line ≤ b.line) →
    (∀ t ∈ l, e ≤ t.line) →
    e ≤ scanEnd l e ∧
    (∀ c, (buildCommands l).head? = some c → scanEnd l e ≤ c.line) := by
  intro l
  induction l with
  | nil =>
    intro e _ _
    exact ⟨le_refl _, by intro c hc; simp [buildCommands] at hc⟩
  | cons t rest ih =>
    intro e hp he
    obtain ⟨hfirst, hrest⟩ := List.pairwise_cons.mp hp
    by_cases ht : t.type = .COMMAND ∨ t.type = .EOF
    · rw [scanEnd, if_pos ht]
      refine ⟨le_refl _, fun c hc => ?_⟩
      obtain ⟨u, hu, -, hcl⟩ := buildCommands_head_line _ c hc
      rw [hcl]
      exact he u hu
    · rw [scanEnd, if_neg ht]
      have htc : ¬t.type = .COMMAND := fun hcc => ht (Or.inl hcc)
      obtain ⟨ih1, ih2⟩ := ih t.line hrest hfirst
      refine ⟨le_trans (he t (List.mem_cons_self _ _)) ih1, fun c hc => ?_⟩
      rw [buildCommands, if_neg htc] at hc
      exact ih2 c hc

theorem buildCommands_ordered : ∀ (l : List Tok),
    l.Pairwise (fun a b => a.line ≤ b.line) →
    (buildCommands l).Chain' (fun a b => a.end_line ≤ b.line) ∧
    (∀ c ∈ buildCommands l, c.line ≤ c.end_line) := by
  intro l
  induction l with
  | nil => exact fun _ => ⟨by simp [buildCommands], by simp [buildCommands]⟩
  | cons t rest ih =>
    intro hp
    obtain ⟨hfirst, hrest⟩ := List.pairwise_cons.mp hp
    obtain ⟨ihc, ihv⟩ := ih hrest
    rw [buildCommands]
    split_ifs with ht
    · obtain ⟨hb1, hb2⟩ := scanEnd_bounds rest t.line hrest hfirst
      refine ⟨List.chain'_cons'.mpr ⟨fun y hy => hb2 y hy, ihc⟩, ?_⟩
      intro c hc
      rcases List.mem_cons.mp hc with rfl | hc'
      · exact hb1
      · exact ihv c hc'
    · exact ⟨ihc, ihv⟩

theorem get_command_first : ∀ (cs : List RACFCommand) (line : Nat)
    (c : RACFCommand), get_command_at_line cs line = some c →
    ∃ pre post, cs = pre ++ c :: post ∧ c.line ≤ line ∧ line ≤ c.end_line ∧
      ∀ c' ∈ pre, ¬(c'.line ≤ line ∧ line ≤ c'.end_line) := by
  intro cs
  induction cs with
  | nil => intro line c h; simp [get_command_at_line] at h
  | cons x rest ih =>
    intro line c h
    rw [get_command_at_line] at h
    split_ifs at h with hx
    · obtain rfl := Option.some.inj h
      exact ⟨[], rest, rfl, hx.1, hx.2, by simp⟩
    · obtain ⟨pre, post, heq, h1, h2, h3⟩ := ih line c h
      refine ⟨x :: pre, post, by rw [heq, List.cons_append], h1, h2, ?_⟩
      intro c' hc'
      rcases List.mem_cons.mp hc' with rfl | hc''
      · exact hx
      · exact h3 c' hc''

theorem get_command_none : ∀ (cs : List RACFCommand) (line : Nat),
    get_command_at_line cs line = none ↔
    ∀ c ∈ cs, ¬(c.line ≤ line ∧ line ≤ c.end_line) := by
  intro cs
  induction cs with
  | nil => intro line; simp [get_command_at_line]
  | cons x rest ih =>
    intro line
    rw [get_command_at_line]
    split_ifs with hx
    · exact ⟨fun h => absurd h (by simp),
        fun hall => absurd hx (hall x (List.mem_cons_self _ _))⟩
    · rw [ih]
      constructor
      · intro hall c hc
        rcases List.mem_cons.mp hc with rfl | hc'
        · exact hx
        · exact hall c hc'
      · intro hall c hc
        exact hall c (List.mem_cons_of_mem _ hc)

end Srv

/-- C2 counterexample: in the document `ADDUSER (A) DELUSER (B)` both
commands get the span [0, 0], so the spans are not pairwise disjoint: line 0
is contained in two distinct commands' spans, and `get_command_at_line`
returns the first of them. -/
theorem Srv.command_spans_overlap_cex :
    ∃ c1 c2,
      (Srv.tokenize "ADDUSER (A) DELUSER (B)".toList).map Srv.buildCommands
        = some [c1, c2] ∧
      c1 ≠ c2 ∧
      (c1.line ≤ 0 ∧ 0 ≤ c1.end_line) ∧ (c2.line ≤ 0 ∧ 0 ≤ c2.end_line) ∧
      Srv.get_command_at_line [c1, c2] 0 = some c1 :=
  ⟨⟨"ADDUSER".toList, 0, 0, [], [], [], []⟩,
   ⟨"DELUSER".toList, 0, 0, [], [], [], []⟩,
   by rfl, by decide, by decide, by decide, by rfl⟩

/-- C2 amended: command spans are ordered (`end_line` of each command is at
most the next command's start line) but may overlap at a shared boundary
line; `get_command_at_line` returns the first command in source order whose
`[line, end_line]` span contains the queried line, and `None` exactly when
no span contains it. -/
theorem Srv.command_span_lookup_ordered {src : List Char} {ts : List Srv.Tok}
    (h : Srv.tokenize src = some ts) :
    ((Srv.buildCommands ts).Chain' (fun a b => a.end_line ≤ b.line)) ∧
    (∀ line c, Srv.get_command_at_line (Srv.buildCommands ts) line = some c →
      ∃ pre post, Srv.buildCommands ts = pre ++ c :: post ∧
        c.line ≤ line ∧ line ≤ c.end_line ∧
        ∀ c' ∈ pre, ¬(c'.line ≤ line ∧ line ≤ c'.end_line)) ∧
    (∀ line, Srv.get_command_at_line (Srv.buildCommands ts) line = none ↔
      ∀ c ∈ Srv.buildCommands ts, ¬(c.line ≤ line ∧ line ≤ c.end_line)) :=
  ⟨(Srv.buildCommands_ordered ts (Srv.tokenize_line_mono h)).1,
   fun line c => Srv.get_command_first _ line c,
   fun line => Srv.get_command_none _ line⟩

/-- Witness for C2 (amended) on the document `"AU\nPE"`, querying line 1. -/
theorem Srv.command_span_lookup_ordered_witness :
    ∃ pre post,
      Srv.buildCommands
        [⟨.COMMAND, "AU".toList, 0, 0⟩, ⟨.COMMAND, "PE".toList, 1, 0⟩,
         ⟨.EOF, [], 1, 2⟩] = pre ++ (⟨"PE".toList, 1, 1, [], [], [], []⟩ : Srv.RACFCommand) :: post ∧
      (⟨"PE".toList, 1, 1, [], [], [], []⟩ : Srv.RACFCommand).line ≤ 1 ∧
      1 ≤ (⟨"PE".toList, 1, 1, [], [], [], []⟩ : Srv.RACFCommand).end_line ∧
      ∀ c' ∈ pre, ¬(c'.line ≤ 1 ∧ 1 ≤ c'.end_line) :=
  (Srv.command_span_lookup_ordered
    (by rfl : Srv.tokenize "AU\nPE".toList =
      some [⟨.COMMAND, "AU".toList, 0, 0⟩, ⟨.COMMAND, "PE".toList, 1, 0⟩,
            ⟨.EOF, [], 1, 2⟩])).2.1 1 _ (by rfl)

namespace Srv

theorem buildCommands_fields : ∀ (l : List Tok), ∀ c ∈ buildCommands l,
    c.arguments = [] ∧ c.keywords = [] ∧ c.segments = [] ∧ c.flags = [] := by
  intro l
  induction l with
  | nil => intro c hc; simp [buildCommands] at hc
  | cons t rest ih =>
    intro c hc
    rw [buildCommands] at hc
    split_ifs at hc with ht
    · rcases List.mem_cons.mp hc with rfl | hc'
      · exact ⟨rfl, rfl, rfl, rfl⟩
      · exact ih c hc'
    · exact ih c hc

end Srv

namespace Ex

/-- Token kinds of the example lexer (`TokenType` in `adduser_parser.py`). -/
inductive TokType where
  | COMMAND | KEYWORD | LPAREN | RPAREN | STRING
  | IDENTIFIER | NUMBER | CONTINUATION | EOF
deriving DecidableEq, Repr

/-- A token of the example lexer (no `end_column` field in this file). -/
structure Tok where
  type : TokType
  value : List Char
  line : Nat
  column : Nat
deriving DecidableEq, Repr

/-- `ADDUSER_KEYWORDS`, the lexer's single classification set. -/
def ADDUSER_KEYWORDS : List (List Char) := Srv.strsOf
  ["ADDUSER", "AU",
   "ADSP", "NOADSP", "AUDITOR", "NOAUDITOR", "GRPACC", "NOGRPACC",
   "OIDCARD", "NOOIDCARD", "OPERATIONS", "NOOPERATIONS",
   "RESTRICTED", "NORESTRICTED", "ROAUDIT", "NOROAUDIT",
   "SPECIAL", "NOSPECIAL", "NOPASSWORD", "NOCLAUTH",
   "ADDCATEGORY", "AUTHORITY", "CLAUTH", "DATA", "DFLTGRP",
   "MODEL", "NAME", "OWNER", "PASSWORD", "PHRASE",
   "SECLABEL", "SECLEVEL", "UACC",
   "CICS", "DCE", "DFP", "EIM", "KERB", "LANGUAGE", "LNOTES",
   "NDS", "NETVIEW", "OMVS", "OPERPARM", "OVM", "PROXY",
   "TSO", "WHEN", "WORKATTR",
   "ASSIZEMAX", "AUTOUID", "UID", "SHARED", "CPUTIMEMAX",
   "FILEPROCMAX", "HOME", "MEMLIMIT", "NOMEMLIMIT",
   "MMAPAREAMAX", "PROCUSERMAX", "PROGRAM", "SHMEMMAX",
   "NOSHMEMMAX", "THREADSMAX",
   "ACCTNUM", "COMMAND", "DEST", "HOLDCLASS", "JOBCLASS",
   "MAXSIZE", "MSGCLASS", "PROC", "SIZE", "SYS", "UNIT", "USERDATA",
   "DATAAPPL", "DATACLAS", "MGMTCLAS", "STORCLAS",
   "DAYS", "TIME",
   "ENCRYPT", "KERBNAME", "MAXTKTLFE",
   "DES", "NODES", "DES3", "NODES3", "DESD", "NODESD",
   "AES128", "NOAES128", "AES256", "NOAES256",
   "AES128SHA2", "NOAES128SHA2", "AES256SHA2", "NOAES256SHA2",
   "PRIMARY", "SECONDARY",
   "OPCLASS", "OPIDENT", "OPPRTY", "RSLKEY", "TIMEOUT", "TSLKEY",
   "XRFSOFF", "FORCE", "NOFORCE",
   "NONE", "READ", "UPDATE", "CONTROL", "ALTER",
   "USE", "CREATE", "CONNECT", "JOIN"]

/-- The two command words recognized by `read_identifier_or_keyword`. -/
def COMMAND_WORDS : List (List Char) := Srv.strsOf ["ADDUSER", "AU"]

/-- Whitespace for the example lexer: `' \t\n\r'` (newlines included). -/
def wsChar (c : Char) : Bool := c = ' ' || c = '\t' || c = '\n' || c = '\r'

/-- Identifier characters: `isalnum` plus `@#$_`. -/
def identChar (c : Char) : Bool :=
  c.isAlphanum || c = '@' || c = '#' || c = '$' || c = '_'

/-- Guard for entering `read_identifier_or_keyword`: `isalnum` plus `@#$`. -/
def identStart (c : Char) : Bool :=
  c.isAlphanum || c = '@' || c = '#' || c = '$'

/-- `skip_whitespace` (spaces, tabs, and newlines). -/
def skipWs : List Char → Nat → Nat → List Char × Nat × Nat
  | c :: rest, l, k =>
    if wsChar c then
      let p := Srv.advChar c l k
      skipWs rest p.1 p.2
    else (c :: rest, l, k)
  | [], l, k => ([], l, k)

/-- The loop of `skip_comment`, after `/*` has been consumed. -/
def skipComGo : List Char → Nat → Nat → List Char × Nat × Nat
  | [], l, k => ([], l, k)
  | c :: rest, l, k =>
    if c = '*' ∧ rest.head? = some '/' then (rest.tail, l, k + 2)
    else
      let p := Srv.advChar c l k
      skipComGo rest p.1 p.2

/-- The loop of `read_identifier_or_keyword`. -/
def readIdentGo : List Char → Nat → List Char → List Char × List Char × Nat
  | [], k, acc => (acc, [], k)
  | c :: rest, k, acc =>
    if identChar c then readIdentGo rest (k + 1) (acc ++ [c])
    else (acc, c :: rest, k)

/-- The classification performed at the end of `read_identifier_or_keyword`. -/
def classifyWord (v : List Char) (l k : Nat) : Tok :=
  let upper := v.map Char.toUpper
  if upper ∈ ADDUSER_KEYWORDS then
    if upper ∈ COMMAND_WORDS then ⟨.COMMAND, upper, l, k⟩
    else ⟨.KEYWORD, upper, l, k⟩
  else if v ≠ [] ∧ v.all Char.isDigit then ⟨.NUMBER, v, l, k⟩
  else ⟨.IDENTIFIER, upper, l, k⟩

/-- One iteration of the example `tokenize` loop. -/
def lexStep (st : Srv.LexSt) : Option (Option Tok × Srv.LexSt) :=
  match st.rem with
  | [] => none
  | c :: rest =>
    if wsChar c then
      match skipWs st.rem st.line st.col with
      | (rem2, l2, k2) => some (none, ⟨rem2, l2, k2⟩)
    else if c = '/' ∧ rest.head? = some '*' then
      match skipComGo rest.tail st.line (st.col + 2) with
      | (rem2, l2, k2) => some (none, ⟨rem2, l2, k2⟩)
    else if c = '-' ∧ (rest.head? = none ∨ rest.head? = some '\n' ∨
        rest.head? = some '\r') then
      some (some ⟨.CONTINUATION, ['-'], st.line, st.col⟩,
            ⟨rest, st.line, st.col + 1⟩)
    else if c = '(' then
      some (some ⟨.LPAREN, ['('], st.line, st.col⟩, ⟨rest, st.line, st.col + 1⟩)
    else if c = ')' then
      some (some ⟨.RPAREN, [')'], st.line, st.col⟩, ⟨rest, st.line, st.col + 1⟩)
    else if c = Srv.quoteChar then
      match Srv.readStrGo rest st.line (st.col + 1) [] with
      | (v, rem2, l2, k2) =>
        some (some ⟨.STRING, v, st.line, st.col⟩, ⟨rem2, l2, k2⟩)
    else if identStart c then
      match readIdentGo st.rem st.col [] with
      | (v, rem2, k2) =>
        some (some (classifyWord v st.line st.col), ⟨rem2, st.line, k2⟩)
    else
      some (none, ⟨rest, st.line, st.col + 1⟩)

/-- The example `tokenize` loop, fuelled. -/
def tokenizeFuel : Nat → Srv.LexSt → List Tok → Option (List Tok)
  | 0, _, _ => none
  | fuel + 1, st, acc =>
    match lexStep st with
    | none => some (acc ++ [⟨.EOF, [], st.line, st.col⟩])
    | some (t?, st') => tokenizeFuel fuel st' (acc ++ t?.toList)

/-- `Lexer(source).tokenize()` of the example file; this lexer starts at
line 1, column 1. -/
def tokenize (src : List Char) : Option (List Tok) :=
  tokenizeFuel (src.length + 1) ⟨src, 1, 1⟩ []

end Ex

namespace Ex

mutual
/-- A value recorded in a keyword mapping: Python stores either a plain
string (`parse_single_value` with one element), a list of strings, the
boolean `True` for flags inside segments, or a nested `Segment`. -/
inductive PVal where
  | str (s : List Char)
  | vlist (vs : List (List Char))
  | flagv (b : Bool)
  | segv (s : PSeg)

/-- A `Segment` dataclass: name and keyword mapping (insertion-ordered,
as a Python dict). -/
inductive PSeg where
  | mk (name : List Char) (keywords : List (List Char × PVal))
end

def PSeg.name : PSeg → List Char
  | ⟨n, _⟩ => n

def PSeg.keywords : PSeg → List (List Char × PVal)
  | ⟨_, ks⟩ => ks

/-- The `AddUserCommand` dataclass. -/
structure AddUserCommand where
  userids : List (List Char)
  keywords : List (List Char × PVal)
  segments : List (List Char × PSeg)
  flags : List (List Char)

/-- Python `dict[k] = v`: overwrite in place or append. -/
def assocSet {α : Type} : List (List Char × α) → List Char → α →
    List (List Char × α)
  | [], key, v => [(key, v)]
  | (k, w) :: rest, key, v =>
    if k = key then (key, v) :: rest else (k, w) :: assocSet rest key v

/-- Python `dict[k]` / `k in dict`. -/
def assocGet {α : Type} : List (List Char × α) → List Char → Option α
  | [], _ => none
  | (k, w) :: rest, key => if k = key then some w else assocGet rest key

/-- Python `set.add`. -/
def setAdd (s : List (List Char)) (x : List Char) : List (List Char) :=
  if x ∈ s then s else s ++ [x]

/-- `SEGMENT_NAMES` of the parser. -/
def SEGMENT_NAMES : List (List Char) := Srv.strsOf
  ["CICS", "DCE", "DFP", "EIM", "KERB", "LANGUAGE", "LNOTES",
   "NDS", "NETVIEW", "OMVS", "OPERPARM", "OVM", "PROXY",
   "TSO", "WHEN", "WORKATTR", "ENCRYPT"]

/-- `FLAG_KEYWORDS` of the parser. -/
def FLAG_KEYWORDS : List (List Char) := Srv.strsOf
  ["ADSP", "NOADSP", "AUDITOR", "NOAUDITOR", "GRPACC", "NOGRPACC",
   "OIDCARD", "NOOIDCARD", "OPERATIONS", "NOOPERATIONS",
   "RESTRICTED", "NORESTRICTED", "ROAUDIT", "NOROAUDIT",
   "SPECIAL", "NOSPECIAL", "NOPASSWORD", "NOCLAUTH",
   "AUTOUID", "SHARED", "NOMEMLIMIT", "NOSHMEMMAX",
   "DES", "NODES", "DES3", "NODES3", "DESD", "NODESD",
   "AES128", "NOAES128", "AES256", "NOAES256",
   "AES128SHA2", "NOAES128SHA2", "AES256SHA2", "NOAES256SHA2",
   "FORCE", "NOFORCE"]

/-- Errors raised by the parser (`SyntaxError` in the source, with the
offending position recorded). -/
inductive PErr where
  | expectedTok (want : TokType) (gotType : TokType) (line col : Nat)
  | expectedCommand (line : Nat)
deriving DecidableEq, Repr

/-- `Parser.current()`: the token at `pos`, or `tokens[-1]` past the end. -/
def currentTok (toks : List Tok) (pos : Nat) : Tok :=
  toks.getD pos (toks.getLastD ⟨.EOF, [], 0, 0⟩)

/-- `Parser.expect`: check the current token's type, advance on success. -/
def expect (toks : List Tok) (pos : Nat) (tt : TokType) : Except PErr Nat :=
  let t := currentTok toks pos
  if t.type = tt then .ok (pos + 1)
  else .error (.expectedTok tt t.type t.line t.column)

/-- The collection loop of `parse_value_list` (between the parentheses). -/
def valueLoop : Nat → List Tok → Nat → List (List Char) →
    Option (Except PErr (List (List Char) × Nat))
  | 0, _, _, _ => none
  | fuel + 1, toks, pos, vals =>
    let t := currentTok toks pos
    if t.type = .RPAREN then some (.ok (vals, pos))
    else if t.type = .IDENTIFIER ∨ t.type = .STRING ∨ t.type = .NUMBER ∨
        t.type = .KEYWORD then
      valueLoop fuel toks (pos + 1) (vals ++ [t.value])
    else some (.ok (vals, pos))

/-- `parse_value_list`: `(` values `)`. -/
def parse_value_list (fuel : Nat) (toks : List Tok) (pos : Nat) :
    Option (Except PErr (List (List Char) × Nat)) :=
  match expect toks pos .LPAREN with
  | .error e => some (.error e)
  | .ok pos1 =>
    match valueLoop fuel toks pos1 [] with
    | none => none
    | some (.error e) => some (.error e)
    | some (.ok (vals, pos2)) =>
      match expect toks pos2 .RPAREN with
      | .error e => some (.error e)
      | .ok pos3 => some (.ok (vals, pos3))

/-- `parse_single_value`'s collapse: a single value stays a scalar, any
other arity stays a list. -/
def singleOf (vs : List (List Char)) : PVal :=
  match vs with
  | [v] => .str v
  | _ => .vlist vs

mutual
/-- The body loop of `parse_segment` (between the parentheses). -/
def segLoop : Nat → List Tok → Nat → PSeg → Option (Except PErr (PSeg × Nat))
  | 0, _, _, _ => none
  | fuel + 1, toks, pos, seg =>
    let t := currentTok toks pos
    if t.type = .RPAREN then some (.ok (seg, pos))
    else if t.type = .KEYWORD then
      let kw := t.value
      if kw ∈ FLAG_KEYWORDS then
        segLoop fuel toks (pos + 1)
          ⟨seg.name, assocSet seg.keywords kw (.flagv true)⟩
      else if (currentTok toks (pos + 1)).type = .LPAREN then
        if kw ∈ SEGMENT_NAMES then
          match parse_segment fuel toks (pos + 1) kw with
          | none => none
          | some (.error e) => some (.error e)
          | some (.ok (sub, pos2)) =>
            segLoop fuel toks pos2
              ⟨seg.name, assocSet seg.keywords kw (.segv sub)⟩
        else
          match parse_value_list fuel toks (pos + 1) with
          | none => none
          | some (.error e) => some (.error e)
          | some (.ok (vals, pos2)) =>
            segLoop fuel toks pos2
              ⟨seg.name, assocSet seg.keywords kw (singleOf vals)⟩
      else
        segLoop fuel toks (pos + 1) seg
    else if t.type = .EOF then some (.ok (seg, pos))
    else segLoop fuel toks (pos + 1) seg

/-- `parse_segment`: `(` body `)` collecting into a fresh `Segment`. -/
def parse_segment : Nat → List Tok → Nat → List Char →
    Option (Except PErr (PSeg × Nat))
  | 0, _, _, _ => none
  | fuel + 1, toks, pos, name =>
    match expect toks pos .LPAREN with
    | .error e => some (.error e)
    | .ok pos1 =>
      match segLoop fuel toks pos1 ⟨name, []⟩ with
      | none => none
      | some (.error e) => some (.error e)
      | some (.ok (seg, pos2)) =>
        match expect toks pos2 .RPAREN with
        | .error e => some (.error e)
        | .ok pos3 => some (.ok (seg, pos3))
end

/-- The keyword loop of `Parser.parse` (after the userid list). -/
def kwLoop : Nat → List Tok → Nat → AddUserCommand →
    Option (Except PErr AddUserCommand)
  | 0, _, _, _ => none
  | fuel + 1, toks, pos, cmd =>
    let t := currentTok toks pos
    if t.type = .EOF then some (.ok cmd)
    else if t.type = .KEYWORD then
      let kw := t.value
      if kw ∈ FLAG_KEYWORDS then
        kwLoop fuel toks (pos + 1) {cmd with flags := setAdd cmd.flags kw}
      else if kw ∈ SEGMENT_NAMES then
        match parse_segment fuel toks (pos + 1) kw with
        | none => none
        | some (.error e) => some (.error e)
        | some (.ok (seg, pos2)) =>
          kwLoop fuel toks pos2
            {cmd with segments := assocSet cmd.segments kw seg}
      else if (currentTok toks (pos + 1)).type = .LPAREN then
        match parse_value_list fuel toks (pos + 1) with
        | none => none
        | some (.error e) => some (.error e)
        | some (.ok (vals, pos2)) =>
          kwLoop fuel toks pos2
            {cmd with keywords := assocSet cmd.keywords kw (singleOf vals)}
      else
        kwLoop fuel toks (pos + 1) cmd
    else
      kwLoop fuel toks (pos + 1) cmd

/-- `Parser.parse`: command token, userid list, keyword loop. -/
def parse (fuel : Nat) (toks : List Tok) :
    Option (Except PErr AddUserCommand) :=
  let t := currentTok toks 0
  if t.type ≠ .COMMAND then some (.error (.expectedCommand t.line))
  else
    match parse_value_list fuel toks 1 with
    | none => none
    | some (.error e) => some (.error e)
    | some (.ok (userids, pos1)) => kwLoop fuel toks pos1 ⟨userids, [], [], []⟩

/-- `Parser.__init__`: continuation tokens are filtered out up front. -/
def filterCont (toks : List Tok) : List Tok :=
  toks.filter (fun t => t.type ≠ .CONTINUATION)

/-- `parse_adduser`: full pipeline of the example file. -/
def parse_adduser (src : List Char) : Option (Except PErr AddUserCommand) :=
  match tokenize src with
  | none => none
  | some toks =>
    let ft := filterCont toks
    parse (ft.length + 1) ft

end Ex

/-- C1 counterexample: `ADDUSER (A) SPECIAL` is a well-formed command (the
structured ADDUSER parser accepts it and records the flag `SPECIAL`), yet
the document built by `RACFDocument.parse` contains it with empty keywords,
flags and segments: the index never invokes the structured parser. -/
theorem Srv.document_fields_never_populated_cex :
    Ex.parse_adduser "ADDUSER (A) SPECIAL".toList =
      some (.ok ⟨["A".toList], [], [], ["SPECIAL".toList]⟩) ∧
    "SPECIAL".toList ∈ (["SPECIAL".toList] : List (List Char)) ∧
    (Srv.tokenize "ADDUSER (A) SPECIAL".toList).map Srv.buildCommands =
      some [⟨"ADDUSER".toList, 0, 0, [], [], [], []⟩] :=
  ⟨by rfl, by decide, by rfl⟩

/-- C1 amended: building the document performs only command-span detection
and never invokes the structured parser: every command of every built
document has empty arguments, keywords, segments and flags while its
`line ≤ end_line` span stays valid; in the malformed-first/well-formed-second
document `"ADDUSER (X\nALTUSER (Y) NAME('N')"` (whose first command the
structured parser rejects with a missing-`)` error) the commands list still
has two commands with correct spans and empty structured fields. -/
theorem Srv.document_commands_span_only {src : List Char} {ts : List Srv.Tok}
    (h : Srv.tokenize src = some ts) :
    (∀ c ∈ Srv.buildCommands ts, c.arguments = [] ∧ c.keywords = [] ∧
      c.segments = [] ∧ c.flags = [] ∧ c.line ≤ c.end_line) ∧
    Ex.parse_adduser "ADDUSER (X".toList =
      some (.error (.expectedTok .RPAREN .EOF 1 11)) ∧
    (Srv.tokenize "ADDUSER (X\nALTUSER (Y) NAME('N')".toList).map
        Srv.buildCommands =
      some [⟨"ADDUSER".toList, 0, 0, [], [], [], []⟩,
            ⟨"ALTUSER".toList, 1, 1, [], [], [], []⟩] := by
  refine ⟨fun c hc => ?_, by rfl, by rfl⟩
  obtain ⟨h1, h2, h3, h4⟩ := Srv.buildCommands_fields ts c hc
  exact ⟨h1, h2, h3, h4,
    (Srv.buildCommands_ordered ts (Srv.tokenize_line_mono h)).2 c hc⟩

/-- Witness for C1 (amended) on the two-command document `"AU\nPE"`,
instantiated at its first built command. -/
theorem Srv.document_commands_span_only_witness :
    (⟨"AU".toList, 0, 0, [], [], [], []⟩ : Srv.RACFCommand).arguments = [] ∧
    (⟨"AU".toList, 0, 0, [], [], [], []⟩ : Srv.RACFCommand).keywords = [] ∧
    (⟨"AU".toList, 0, 0, [], [], [], []⟩ : Srv.RACFCommand).segments = [] ∧
    (⟨"AU".toList, 0, 0, [], [], [], []⟩ : Srv.RACFCommand).flags = [] ∧
    (⟨"AU".toList, 0, 0, [], [], [], []⟩ : Srv.RACFCommand).line ≤
      (⟨"AU".toList, 0, 0, [], [], [], []⟩ : Srv.RACFCommand).end_line :=
  (Srv.document_commands_span_only
    (by rfl : Srv.tokenize "AU\nPE".toList =
      some [⟨.COMMAND, "AU".toList, 0, 0⟩, ⟨.COMMAND, "PE".toList, 1, 0⟩,
            ⟨.EOF, [], 1, 2⟩])).1
    ⟨"AU".toList, 0, 0, [], [], [], []⟩ (by decide)

/-- C10: a KEYWORD token that is neither a flag keyword nor a known segment
name and is not followed by `(` is skipped by both the top-level keyword
loop and the segment body loop: nothing is recorded (the command/segment is
returned unchanged to the continuation), no error is raised, and parsing
continues at the next token. -/
theorem Ex.unknown_keyword_skipped (fuel : Nat) (toks : List Ex.Tok)
    (pos : Nat) (cmd : Ex.AddUserCommand) (seg : Ex.PSeg) (kw : List Char)
    (ht : (Ex.currentTok toks pos).type = .KEYWORD)
    (hv : (Ex.currentTok toks pos).value = kw)
    (hf : kw ∉ Ex.FLAG_KEYWORDS)
    (hs : kw ∉ Ex.SEGMENT_NAMES)
    (hp : (Ex.currentTok toks (pos + 1)).type ≠ .LPAREN) :
    Ex.kwLoop (fuel + 1) toks pos cmd = Ex.kwLoop fuel toks (pos + 1) cmd ∧
    Ex.segLoop (fuel + 1) toks pos seg = Ex.segLoop fuel toks (pos + 1) seg := by
  constructor
  · rw [Ex.kwLoop]
    simp [ht, hv, hf, hs, hp]
  · rw [Ex.segLoop]
    simp [ht, hv, hf, hp]

/-- Witness for C10: the valued keyword `NAME` with no following `(`
(next token is EOF) is skipped by both loops. -/
theorem Ex.unknown_keyword_skipped_witness :
    Ex.kwLoop 2 [⟨.KEYWORD, "NAME".toList, 0, 0⟩, ⟨.EOF, [], 0, 4⟩] 0
        ⟨[], [], [], []⟩ =
      Ex.kwLoop 1 [⟨.KEYWORD, "NAME".toList, 0, 0⟩, ⟨.EOF, [], 0, 4⟩] 1
        ⟨[], [], [], []⟩ ∧
    Ex.segLoop 2 [⟨.KEYWORD, "NAME".toList, 0, 0⟩, ⟨.EOF, [], 0, 4⟩] 0
        ⟨"OMVS".toList, []⟩ =
      Ex.segLoop 1 [⟨.KEYWORD, "NAME".toList, 0, 0⟩, ⟨.EOF, [], 0, 4⟩] 1
        ⟨"OMVS".toList, []⟩ :=
  Ex.unknown_keyword_skipped 1 _ 0 _ _ ("NAME".toList)
    (by rfl) (by rfl) (by decide) (by decide) (by decide)

/-- Token list of `ADDUSER (U) TSO(OMVS(ENCRYPT(UID)))` as produced by the
example lexer. -/
def Ex.cexToks : List Ex.Tok :=
  [⟨.COMMAND, "ADDUSER".toList, 1, 1⟩, ⟨.LPAREN, ['('], 1, 9⟩,
   ⟨.IDENTIFIER, "U".toList, 1, 10⟩, ⟨.RPAREN, [')'], 1, 11⟩,
   ⟨.KEYWORD, "TSO".toList, 1, 13⟩, ⟨.LPAREN, ['('], 1, 16⟩,
   ⟨.KEYWORD, "OMVS".toList, 1, 17⟩, ⟨.LPAREN, ['('], 1, 21⟩,
   ⟨.KEYWORD, "ENCRYPT".toList, 1, 22⟩, ⟨.LPAREN, ['('], 1, 29⟩,
   ⟨.KEYWORD, "UID".toList, 1, 30⟩, ⟨.RPAREN, [')'], 1, 33⟩,
   ⟨.RPAREN, [')'], 1, 34⟩, ⟨.RPAREN, [')'], 1, 35⟩, ⟨.EOF, [], 1, 36⟩]

/-- The command produced for it: three nested segments, the innermost empty. -/
def Ex.cexCmd : Ex.AddUserCommand :=
  ⟨["U".toList], [],
   [("TSO".toList, ⟨"TSO".toList,
     [("OMVS".toList, .segv ⟨"OMVS".toList,
       [("ENCRYPT".toList, .segv ⟨"ENCRYPT".toList, []⟩)]⟩)]⟩)], []⟩

/-- C8 counterexample: with A=TSO, B=OMVS, C=ENCRYPT all known segment names
and X=UID a known keyword, parsing `ADDUSER (U) TSO(OMVS(ENCRYPT(UID)))`
yields the three nested segments but the innermost segment records nothing
for the bare keyword UID (it is not a flag and has no value), so keyword X
is not recoverable at depth 3, contrary to the claim. -/
theorem Ex.segment_nesting_bare_keyword_cex :
    Ex.parse_adduser "ADDUSER (U) TSO(OMVS(ENCRYPT(UID)))".toList =
      some (.ok Ex.cexCmd) ∧
    Ex.assocGet Ex.cexCmd.segments "TSO".toList =
      some ⟨"TSO".toList, [("OMVS".toList, .segv ⟨"OMVS".toList,
        [("ENCRYPT".toList, .segv ⟨"ENCRYPT".toList, []⟩)]⟩)]⟩ ∧
    Ex.assocGet (Ex.PSeg.keywords ⟨"TSO".toList,
        [("OMVS".toList, .segv ⟨"OMVS".toList,
          [("ENCRYPT".toList, .segv ⟨"ENCRYPT".toList, []⟩)]⟩)]⟩)
      "OMVS".toList = some (.segv ⟨"OMVS".toList,
        [("ENCRYPT".toList, .segv ⟨"ENCRYPT".toList, []⟩)]⟩) ∧
    Ex.assocGet (Ex.PSeg.keywords ⟨"OMVS".toList,
        [("ENCRYPT".toList, .segv ⟨"ENCRYPT".toList, []⟩)]⟩)
      "ENCRYPT".toList = some (.segv ⟨"ENCRYPT".toList, []⟩) ∧
    Ex.assocGet (Ex.PSeg.keywords ⟨"ENCRYPT".toList, []⟩) "UID".toList =
      none := by
  refine ⟨?_, by rfl, by rfl, by rfl, by rfl⟩
  have h1 : Ex.tokenize "ADDUSER (U) TSO(OMVS(ENCRYPT(UID)))".toList =
      some Ex.cexToks := by rfl
  have h2 : Ex.filterCont Ex.cexToks = Ex.cexToks := by rfl
  have h3 : Ex.parse 16 Ex.cexToks = some (.ok Ex.cexCmd) := by rfl
  show (match Ex.tokenize "ADDUSER (U) TSO(OMVS(ENCRYPT(UID)))".toList with
    | none => none
    | some toks =>
      Ex.parse ((Ex.filterCont toks).length + 1) (Ex.filterCont toks)) =
    some (.ok Ex.cexCmd)
  rw [h1]
  show Ex.parse ((Ex.filterCont Ex.cexToks).length + 1)
    (Ex.filterCont Ex.cexToks) = some (.ok Ex.cexCmd)
  rw [h2]
  show Ex.parse 16 Ex.cexToks = some (.ok Ex.cexCmd)
  exact h3

theorem Ex.segment_flag_disjoint :
    ∀ x ∈ Ex.SEGMENT_NAMES, x ∉ Ex.FLAG_KEYWORDS := by decide

/-- The token sequence of `ADDUSER (U) A(B(C(X)))` (positions immaterial to
the parser's structure). -/
def Ex.nestToks (A B C X : List Char) : List Ex.Tok :=
  [⟨.COMMAND, "ADDUSER".toList, 0, 0⟩, ⟨.LPAREN, ['('], 0, 8⟩,
   ⟨.IDENTIFIER, "U".toList, 0, 9⟩, ⟨.RPAREN, [')'], 0, 10⟩,
   ⟨.KEYWORD, A, 0, 12⟩, ⟨.LPAREN, ['('], 0, 13⟩,
   ⟨.KEYWORD, B, 0, 14⟩, ⟨.LPAREN, ['('], 0, 15⟩,
   ⟨.KEYWORD, C, 0, 16⟩, ⟨.LPAREN, ['('], 0, 17⟩,
   ⟨.KEYWORD, X, 0, 18⟩,
   ⟨.RPAREN, [')'], 0, 19⟩, ⟨.RPAREN, [')'], 0, 20⟩,
   ⟨.RPAREN, [')'], 0, 21⟩, ⟨.EOF, [], 0, 22⟩]

/-- C8 amended: parsing `A(B(C(X)))` where A, B, C are known segment names
and X is a known *flag* keyword yields segment A containing nested segment B
containing nested segment C containing the boolean entry for X — recoverable
by walking the nested keyword mappings exactly three levels deep. -/
theorem Ex.segment_nesting_three_deep (fuel : Nat) (A B C X : List Char)
    (hA : A ∈ Ex.SEGMENT_NAMES) (hB : B ∈ Ex.SEGMENT_NAMES)
    (hC : C ∈ Ex.SEGMENT_NAMES) (hX : X ∈ Ex.FLAG_KEYWORDS) :
    Ex.parse (fuel + 8) (Ex.nestToks A B C X) =
      some (.ok ⟨["U".toList], [],
        [(A, ⟨A, [(B, .segv ⟨B, [(C, .segv ⟨C, [(X, .flagv true)]⟩)]⟩)]⟩)],
        []⟩) ∧
    Ex.assocGet [(A, (⟨A, [(B, .segv ⟨B, [(C, .segv ⟨C, [(X, .flagv true)]⟩)]⟩)]⟩ : Ex.PSeg))] A =
      some ⟨A, [(B, .segv ⟨B, [(C, .segv ⟨C, [(X, .flagv true)]⟩)]⟩)]⟩ ∧
    Ex.assocGet [(B, Ex.PVal.segv ⟨B, [(C, .segv ⟨C, [(X, .flagv true)]⟩)]⟩)] B =
      some (.segv ⟨B, [(C, .segv ⟨C, [(X, .flagv true)]⟩)]⟩) ∧
    Ex.assocGet [(C, Ex.PVal.segv ⟨C, [(X, .flagv true)]⟩)] C =
      some (.segv ⟨C, [(X, .flagv true)]⟩) ∧
    Ex.assocGet [(X, Ex.PVal.flagv true)] X = some (.flagv true) := by
  have hA' : A ∉ Ex.FLAG_KEYWORDS := Ex.segment_flag_disjoint A hA
  have hB' : B ∉ Ex.FLAG_KEYWORDS := Ex.segment_flag_disjoint B hB
  have hC' : C ∉ Ex.FLAG_KEYWORDS := Ex.segment_flag_disjoint C hC
  refine ⟨?_, by simp [Ex.assocGet], by simp [Ex.assocGet],
    by simp [Ex.assocGet], by simp [Ex.assocGet]⟩
  simp [Ex.parse, Ex.nestToks, Ex.currentTok, Ex.parse_value_list, Ex.expect,
    Ex.valueLoop, Ex.kwLoop, Ex.segLoop, Ex.parse_segment, Ex.assocSet,
    Ex.setAdd, Ex.singleOf, Ex.PSeg.name, Ex.PSeg.keywords,
    hA, hB, hC, hX, hA', hB', hC']

/-- Witness for C8 (amended) at A=TSO, B=OMVS, C=ENCRYPT, X=SHARED. -/
theorem Ex.segment_nesting_three_deep_witness :
    Ex.parse (0 + 8) (Ex.nestToks "TSO".toList "OMVS".toList
        "ENCRYPT".toList "SHARED".toList) =
      some (.ok ⟨["U".toList], [],
        [("TSO".toList, ⟨"TSO".toList,
          [("OMVS".toList, .segv ⟨"OMVS".toList,
            [("ENCRYPT".toList, .segv ⟨"ENCRYPT".toList,
              [("SHARED".toList, .flagv true)]⟩)]⟩)]⟩)], []⟩) :=
  (Ex.segment_nesting_three_deep 0 _ _ _ _
    (by decide) (by decide) (by decide) (by decide)).1

namespace Srv

theorem toUpper_eq_dash {c : Char} (h : c.toUpper = '-') : c = '-' := by
  by_cases h97 : c.toNat ≥ 97 ∧ c.toNat ≤ 122
  · exfalso
    have he : c.toUpper = Char.ofNat (c.toNat - 32) := by
      simp [Char.toUpper, h97]
    rw [he] at h
    obtain ⟨h1, h2⟩ := h97
    set n := c.toNat with hn
    interval_cases n <;> exact absurd h (by decide)
  · have he : c.toUpper = c := by simp [Char.toUpper, h97]
    rw [he] at h
    exact h

theorem classifyWord_no_dash {v : List Char} (hv : ∀ c ∈ v, identChar c)
    (l k : Nat) : ('-' : Char) ∉ (classifyWord v l k).value := by
  have hup : ('-' : Char) ∉ v.map Char.toUpper := by
    intro hm
    obtain ⟨c, hc, he⟩ := List.mem_map.mp hm
    have hcd := toUpper_eq_dash he
    subst hcd
    exact absurd (hv _ hc) (by decide)
  have hvv : ('-' : Char) ∉ v := by
    intro hm
    exact absurd (hv _ hm) (by decide)
  simp only [classifyWord]
  repeat' split
  all_goals first | exact hup | exact hvv

/-- Generic transfer of a per-token property through the tokenize loop. -/
theorem tokenizeFuel_forall (P : Tok → Prop)
    (hstep : ∀ st ot st', lexStep st = some (ot, st') →
      ∀ t, ot = some t → P t)
    (heof : ∀ l k, P ⟨.EOF, [], l, k⟩) :
    ∀ (fuel : Nat) (st : LexSt) (acc ts : List Tok),
    tokenizeFuel fuel st acc = some ts →
    (∀ t ∈ acc, P t) → ∀ t ∈ ts, P t := by
  intro fuel
  induction fuel with
  | zero => intro st acc ts h; simp [tokenizeFuel] at h
  | succ n ih =>
    intro st acc ts h hacc
    rw [tokenizeFuel_succ] at h
    cases hstep' : lexStep st with
    | none =>
      rw [hstep'] at h
      obtain rfl := Option.some.inj h
      intro t ht
      rcases List.mem_append.mp ht with ht | ht
      · exact hacc t ht
      · simp only [List.mem_singleton] at ht
        subst ht
        exact heof _ _
    | some p =>
      obtain ⟨ot, st'⟩ := p
      rw [hstep'] at h
      refine ih st' _ ts h ?_
      intro t ht
      rcases List.mem_append.mp ht with ht | ht
      · exact hacc t ht
      · cases ot with
        | none => simp [Option.toList] at ht
        | some u =>
          simp only [Option.toList, List.mem_singleton] at ht
          subst ht
          exact hstep st (some t) st' hstep' t rfl

theorem lexStep_no_dash : ∀ (st : LexSt) (ot : Option Tok) (st' : LexSt),
    lexStep st = some (ot, st') → ∀ t, ot = some t →
    (t.type = .COMMAND ∨ t.type = .KEYWORD ∨ t.type = .SEGMENT ∨
     t.type = .IDENTIFIER ∨ t.type = .NUMBER) → ('-' : Char) ∉ t.value := by
  intro st ot st' h
  obtain ⟨rem, l, k⟩ := st
  match rem with
  | [] => simp [lexStep] at h
  | c :: rest =>
    simp only [lexStep] at h
    split_ifs at h with h1 h2 h3 h4 h5 h6 h7 h8 h9
    · simp only [skipWs_eq] at h
      obtain ⟨rfl, rfl⟩ := Prod.mk.injEq .. ▸ (Option.some.inj h)
      rintro t ⟨⟩
    · obtain ⟨rfl, rfl⟩ := Prod.mk.injEq .. ▸ (Option.some.inj h)
      rintro t ⟨⟩
    · obtain ⟨w, rem', l', k', heq, -⟩ := readComGo_pos rest.tail l (k + 2) ['/', '*']
      simp only [heq] at h
      obtain ⟨rfl, rfl⟩ := Prod.mk.injEq .. ▸ (Option.some.inj h)
      rintro t ht htype
      obtain rfl := Option.some.inj ht
      rcases htype with h' | h' | h' | h' | h' <;> cases h'
    · obtain ⟨rfl, rfl⟩ := Prod.mk.injEq .. ▸ (Option.some.inj h)
      rintro t ht htype
      obtain rfl := Option.some.inj ht
      rcases htype with h' | h' | h' | h' | h' <;> cases h'
    · obtain ⟨rfl, rfl⟩ := Prod.mk.injEq .. ▸ (Option.some.inj h)
      rintro t ⟨⟩
    · obtain ⟨rfl, rfl⟩ := Prod.mk.injEq .. ▸ (Option.some.inj h)
      rintro t ht htype
      obtain rfl := Option.some.inj ht
      rcases htype with h' | h' | h' | h' | h' <;> cases h'
    · obtain ⟨rfl, rfl⟩ := Prod.mk.injEq .. ▸ (Option.some.inj h)
      rintro t ht htype
      obtain rfl := Option.some.inj ht
      rcases htype with h' | h' | h' | h' | h' <;> cases h'
    · obtain ⟨w, rem', l', k', heq, -⟩ := readStrGo_pos rest l (k + 1) []
      simp only [List.nil_append] at heq
      simp only [heq] at h
      obtain ⟨rfl, rfl⟩ := Prod.mk.injEq .. ▸ (Option.some.inj h)
      rintro t ht htype
      obtain rfl := Option.some.inj ht
      rcases htype with h' | h' | h' | h' | h' <;> cases h'
    · simp only [readIdentGo_eq, List.nil_append] at h
      obtain ⟨rfl, rfl⟩ := Prod.mk.injEq .. ▸ (Option.some.inj h)
      rintro t ht htype
      obtain rfl := Option.some.inj ht
      exact classifyWord_no_dash
        (fun c hc => List.mem_takeWhile_imp hc) l k
    · obtain ⟨rfl, rfl⟩ := Prod.mk.injEq .. ▸ (Option.some.inj h)
      rintro t ⟨⟩

end Srv

/-- C9: a `-` followed (after only horizontal whitespace, not a newline) by
end-of-line or end-of-input is emitted as a Continuation token; any other
`-` is consumed without being tokenized, and `-` never appears inside the
word tokens produced by `read_identifier` (COMMAND/KEYWORD/SEGMENT/
IDENTIFIER/NUMBER), since it is not in the identifier character set. -/
theorem Srv.dash_continuation_rule {src : List Char} {ts : List Srv.Tok}
    (h : Srv.tokenize src = some ts) :
    (∀ t ∈ ts, (t.type = .COMMAND ∨ t.type = .KEYWORD ∨ t.type = .SEGMENT ∨
      t.type = .IDENTIFIER ∨ t.type = .NUMBER) → ('-' : Char) ∉ t.value) ∧
    (∀ rem l k, Srv.lexStep ⟨'-' :: rem, l, k⟩ =
      if rem.dropWhile Srv.hws = [] ∨
          (rem.dropWhile Srv.hws).head? = some '\n' then
        some (some ⟨.CONTINUATION, ['-'], l, k⟩, ⟨rem, l, k + 1⟩)
      else some (none, ⟨rem, l, k + 1⟩)) := by
  constructor
  · exact Srv.tokenizeFuel_forall _ Srv.lexStep_no_dash
      (fun l k => by rintro (h' | h' | h' | h' | h') <;> cases h')
      _ _ [] ts h (by simp)
  · intro rem l k
    have hc : ¬(('-' : Char) = '/' ∧ rem.head? = some '*') := by
      rintro ⟨hx, -⟩
      exact absurd hx (by decide)
    simp [Srv.lexStep, hc, (by decide : Srv.hws '-' = false),
      (by decide : ¬('-' : Char) = '\n')]

/-- Witness for C9 on the document `"AB-CD"`: the `-` splits the word into
the identifiers `AB` and `CD`, and carries no `-` into either token. -/
theorem Srv.dash_continuation_rule_witness :
    ('-' : Char) ∉ (Srv.Tok.mk .IDENTIFIER "AB".toList 0 0).value :=
  (Srv.dash_continuation_rule
    (by rfl : Srv.tokenize "AB-CD".toList =
      some [⟨.IDENTIFIER, "AB".toList, 0, 0⟩,
            ⟨.IDENTIFIER, "CD".toList, 0, 3⟩, ⟨.EOF, [], 0, 5⟩])).1
    _ (by decide) (by decide)

namespace Ex

/-- Well-formedness of a segment's keyword mapping: flag keywords map to the
boolean `True`, non-flag keywords never map to a boolean, and nested
segments are recursively well-formed. -/
inductive SegOK : PSeg → Prop where
  | intro (name : List Char) (kws : List (List Char × PVal))
      (hflag : ∀ p ∈ kws, p.1 ∈ FLAG_KEYWORDS → p.2 = PVal.flagv true)
      (hnon : ∀ p ∈ kws, p.1 ∉ FLAG_KEYWORDS → ∀ b, p.2 ≠ PVal.flagv b)
      (hrec : ∀ p ∈ kws, ∀ s, p.2 = PVal.segv s → SegOK s) :
      SegOK ⟨name, kws⟩

/-- The same condition as a predicate on keyword mappings. -/
def SegKwsOK (kws : List (List Char × PVal)) : Prop :=
  (∀ p ∈ kws, p.1 ∈ FLAG_KEYWORDS → p.2 = PVal.flagv true) ∧
  (∀ p ∈ kws, p.1 ∉ FLAG_KEYWORDS → ∀ b, p.2 ≠ PVal.flagv b) ∧
  (∀ p ∈ kws, ∀ s, p.2 = PVal.segv s → SegOK s)

theorem segOK_mk {name : List Char} {kws : List (List Char × PVal)}
    (h : SegKwsOK kws) : SegOK ⟨name, kws⟩ :=
  .intro name kws h.1 h.2.1 h.2.2

/-- Flag/value/segment disjointness of a parsed command: the flag set only
holds flag keywords, the value mapping holds no flag keyword, and every
recorded segment is well-formed. -/
def CmdOK (cmd : AddUserCommand) : Prop :=
  (∀ x ∈ cmd.flags, x ∈ FLAG_KEYWORDS) ∧
  (∀ p ∈ cmd.keywords, p.1 ∉ FLAG_KEYWORDS) ∧
  (∀ p ∈ cmd.segments, SegOK p.2)

theorem assocSet_forall {α : Type} (P : List Char × α → Prop) :
    ∀ {kws : List (List Char × α)} {k : List Char} {v : α},
    (∀ p ∈ kws, P p) → P (k, v) → ∀ p ∈ assocSet kws k v, P p := by
  intro kws
  induction kws with
  | nil =>
    intro k v _ hnew p hp
    simp only [assocSet, List.mem_singleton] at hp
    exact hp ▸ hnew
  | cons q rest ih =>
    intro k v hall hnew p hp
    obtain ⟨k', w'⟩ := q
    rw [assocSet] at hp
    split_ifs at hp with he
    · rcases List.mem_cons.mp hp with rfl | hp'
      · exact hnew
      · exact hall p (List.mem_cons_of_mem _ hp')
    · rcases List.mem_cons.mp hp with rfl | hp'
      · exact hall _ (List.mem_cons_self _ _)
      · exact ih (fun q hq => hall q (List.mem_cons_of_mem _ hq)) hnew p hp'

theorem mem_setAdd_self (s : List (List Char)) (x : List Char) :
    x ∈ setAdd s x := by
  unfold setAdd
  split_ifs with h
  · exact h
  · simp

theorem mem_setAdd_of_mem {s : List (List Char)} {x : List Char}
    (y : List Char) (h : x ∈ s) : x ∈ setAdd s y := by
  unfold setAdd
  split_ifs
  · exact h
  · exact List.mem_append_left _ h

theorem mem_setAdd {s : List (List Char)} {y x : List Char}
    (h : x ∈ setAdd s y) : x ∈ s ∨ x = y := by
  unfold setAdd at h
  split_ifs at h
  · exact Or.inl h
  · rcases List.mem_append.mp h with h' | h'
    · exact Or.inl h'
    · simp only [List.mem_singleton] at h'
      exact Or.inr h'

theorem assocGet_set_self {α : Type} :
    ∀ (kws : List (List Char × α)) (k : List Char) (v : α),
    assocGet (assocSet kws k v) k = some v := by
  intro kws
  induction kws with
  | nil => intro k v; simp [assocSet, assocGet]
  | cons q rest ih =>
    intro k v
    obtain ⟨k', w'⟩ := q
    rw [assocSet]
    split_ifs with he
    · simp [assocGet]
    · rw [assocGet, if_neg he]
      exact ih k v

theorem assocGet_set_isSome {α : Type} :
    ∀ {kws : List (List Char × α)} {k' : List Char},
    (assocGet kws k').isSome → ∀ (k : List Char) (v : α),
    (assocGet (assocSet kws k v) k').isSome := by
  intro kws
  induction kws with
  | nil => intro k' h; simp [assocGet] at h
  | cons q rest ih =>
    intro k' h k v
    obtain ⟨k0, w0⟩ := q
    rw [assocGet] at h
    rw [assocSet]
    split_ifs with he
    · subst he
      rw [assocGet]
      split_ifs with he2
      · simp
      · rw [if_neg he2] at h
        exact h
    · rw [assocGet]
      split_ifs with he2
      · simp
      · rw [if_neg he2] at h
        exact ih h k v

theorem singleOf_ne_flagv (vs : List (List Char)) (b : Bool) :
    singleOf vs ≠ PVal.flagv b := by
  match vs with
  | [] => simp [singleOf]
  | [v] => simp [singleOf]
  | v :: w :: rest => simp [singleOf]

theorem singleOf_ne_segv (vs : List (List Char)) (s : PSeg) :
    singleOf vs ≠ PVal.segv s := by
  match vs with
  | [] => simp [singleOf]
  | [v] => simp [singleOf]
  | v :: w :: rest => simp [singleOf]

end Ex

namespace Ex

theorem SegKwsOK_nil : SegKwsOK [] := by
  refine ⟨?_, ?_, ?_⟩ <;> intro p hp <;> simp at hp

theorem SegKwsOK_set {kws : List (List Char × PVal)} {k : List Char}
    {v : PVal} (h : SegKwsOK kws)
    (h1 : k ∈ FLAG_KEYWORDS → v = PVal.flagv true)
    (h2 : k ∉ FLAG_KEYWORDS → ∀ b, v ≠ PVal.flagv b)
    (h3 : ∀ s, v = PVal.segv s → SegOK s) :
    SegKwsOK (assocSet kws k v) :=
  ⟨assocSet_forall (fun p => p.1 ∈ FLAG_KEYWORDS → p.2 = PVal.flagv true)
      h.1 h1,
   assocSet_forall (fun p => p.1 ∉ FLAG_KEYWORDS → ∀ b, p.2 ≠ PVal.flagv b)
      h.2.1 h2,
   assocSet_forall (fun p => ∀ s, p.2 = PVal.segv s → SegOK s) h.2.2 h3⟩

/-- The structural invariants of the recursive-descent parser: segment
bodies keep flag/value/nested-segment entries disjoint, and the keyword
loop keeps the flag set inside `FLAG_KEYWORDS`, the value mapping free of
flag keywords, and all recorded segments well-formed. -/
theorem parse_invariants : ∀ fuel : Nat,
    (∀ toks pos seg out, segLoop fuel toks pos seg = some (.ok out) →
      SegKwsOK seg.keywords → SegKwsOK out.1.keywords) ∧
    (∀ toks pos name out, parse_segment fuel toks pos name = some (.ok out) →
      SegOK out.1) ∧
    (∀ toks pos cmd cmd', kwLoop fuel toks pos cmd = some (.ok cmd') →
      CmdOK cmd → CmdOK cmd') := by
  intro fuel
  induction fuel with
  | zero =>
    refine ⟨?_, ?_, ?_⟩
    · intro toks pos seg out h; simp [segLoop] at h
    · intro toks pos name out h; simp [parse_segment] at h
    · intro toks pos cmd cmd' h; simp [kwLoop] at h
  | succ n ih =>
    obtain ⟨ihSeg, ihPS, ihKw⟩ := ih
    refine ⟨?_, ?_, ?_⟩
    · intro toks pos seg out h hkws
      simp only [segLoop] at h
      split_ifs at h with h1 h2 h3 h4 h5 h6
      · simp only [Option.some.injEq, Except.ok.injEq] at h
        subst h
        exact hkws
      · refine ihSeg _ _ _ _ h (SegKwsOK_set hkws (fun _ => rfl)
          (fun hn => absurd h3 hn) ?_)
        intro s hs
        cases hs
      · cases hps : parse_segment n toks (pos + 1)
            (currentTok toks pos).value with
        | none => simp [hps] at h
        | some res =>
          cases res with
          | error e => simp [hps] at h
          | ok pr =>
            obtain ⟨sub, pos2⟩ := pr
            simp only [hps] at h
            refine ihSeg _ _ _ _ h (SegKwsOK_set hkws
              (fun hf => absurd hf h3) ?_ ?_)
            · intro _ b hb
              cases hb
            · intro s hs
              cases hs
              exact ihPS _ _ _ _ hps
      · cases hvl : parse_value_list n toks (pos + 1) with
        | none => simp [hvl] at h
        | some res =>
          cases res with
          | error e => simp [hvl] at h
          | ok pr =>
            obtain ⟨vals, pos2⟩ := pr
            simp only [hvl] at h
            exact ihSeg _ _ _ _ h (SegKwsOK_set hkws
              (fun hf => absurd hf h3)
              (fun _ b => singleOf_ne_flagv vals b)
              (fun s hs => absurd hs (singleOf_ne_segv vals s)))
      · exact ihSeg _ _ _ _ h hkws
      · simp only [Option.some.injEq, Except.ok.injEq] at h
        subst h
        exact hkws
      · exact ihSeg _ _ _ _ h hkws
    · intro toks pos name out h
      simp only [parse_segment] at h
      cases hexp : expect toks pos .LPAREN with
      | error e => simp [hexp] at h
      | ok pos1 =>
        simp only [hexp] at h
        cases hsl : segLoop n toks pos1 ⟨name, []⟩ with
        | none => simp [hsl] at h
        | some res =>
          cases res with
          | error e => simp [hsl] at h
          | ok pr =>
            obtain ⟨sg, pos2⟩ := pr
            simp only [hsl] at h
            cases hexp2 : expect toks pos2 .RPAREN with
            | error e => simp [hexp2] at h
            | ok pos3 =>
              simp only [hexp2, Option.some.injEq, Except.ok.injEq] at h
              subst h
              have hkws := ihSeg _ _ _ _ hsl SegKwsOK_nil
              obtain ⟨nm, kws⟩ := sg
              exact segOK_mk hkws
    · intro toks pos cmd cmd' h hcmd
      simp only [kwLoop] at h
      split_ifs at h with h1 h2 h3 h4 h5
      · simp only [Option.some.injEq, Except.ok.injEq] at h
        subst h
        exact hcmd
      · refine ihKw _ _ _ _ h ⟨?_, hcmd.2.1, hcmd.2.2⟩
        intro x hx
        rcases mem_setAdd hx with hx' | rfl
        · exact hcmd.1 x hx'
        · exact h3
      · cases hps : parse_segment n toks (pos + 1)
            (currentTok toks pos).value with
        | none => simp [hps] at h
        | some res =>
          cases res with
          | error e => simp [hps] at h
          | ok pr =>
            obtain ⟨sg, pos2⟩ := pr
            simp only [hps] at h
            exact ihKw _ _ _ _ h ⟨hcmd.1, hcmd.2.1,
              assocSet_forall (fun p => SegOK p.2) hcmd.2.2
                (ihPS _ _ _ _ hps)⟩
      · cases hvl : parse_value_list n toks (pos + 1) with
        | none => simp [hvl] at h
        | some res =>
          cases res with
          | error e => simp [hvl] at h
          | ok pr =>
            obtain ⟨vals, pos2⟩ := pr
            simp only [hvl] at h
            exact ihKw _ _ _ _ h ⟨hcmd.1,
              assocSet_forall (fun p => p.1 ∉ FLAG_KEYWORDS)
                hcmd.2.1 h3, hcmd.2.2⟩
      · exact ihKw _ _ _ _ h hcmd
      · exact ihKw _ _ _ _ h hcmd

end Ex

namespace Ex

/-- The keyword loop only grows the flag set and the value mapping. -/
theorem kwLoop_mono : ∀ (fuel : Nat) (toks : List Tok) (pos : Nat)
    (cmd cmd' : AddUserCommand),
    kwLoop fuel toks pos cmd = some (.ok cmd') →
    (∀ x ∈ cmd.flags, x ∈ cmd'.flags) ∧
    (∀ k, (assocGet cmd.keywords k).isSome →
      (assocGet cmd'.keywords k).isSome) := by
  intro fuel
  induction fuel with
  | zero => intro toks pos cmd cmd' h; simp [kwLoop] at h
  | succ n ih =>
    intro toks pos cmd cmd' h
    simp only [kwLoop] at h
    split_ifs at h with h1 h2 h3 h4 h5
    · simp only [Option.some.injEq, Except.ok.injEq] at h
      subst h
      exact ⟨fun x hx => hx, fun k hk => hk⟩
    · obtain ⟨m1, m2⟩ := ih _ _ _ _ h
      exact ⟨fun x hx => m1 x (mem_setAdd_of_mem _ hx), m2⟩
    · cases hps : parse_segment n toks (pos + 1)
          (currentTok toks pos).value with
      | none => simp [hps] at h
      | some res =>
        cases res with
        | error e => simp [hps] at h
        | ok pr =>
          obtain ⟨sg, pos2⟩ := pr
          simp only [hps] at h
          obtain ⟨m1, m2⟩ := ih _ _ _ _ h
          exact ⟨m1, m2⟩
    · cases hvl : parse_value_list n toks (pos + 1) with
      | none => simp [hvl] at h
      | some res =>
        cases res with
        | error e => simp [hvl] at h
        | ok pr =>
          obtain ⟨vals, pos2⟩ := pr
          simp only [hvl] at h
          obtain ⟨m1, m2⟩ := ih _ _ _ _ h
          exact ⟨m1, fun k hk => m2 k (assocGet_set_isSome hk _ _)⟩
    · exact ih _ _ _ _ h
    · exact ih _ _ _ _ h

end Ex

/-- C7: flag/value disjointness of the structured parser.  (a) Every
successfully parsed command satisfies `CmdOK`: its flag set holds only flag
keywords, its value mapping holds no flag keyword, and each recorded segment
is well-formed (inside a segment a flag keyword is recorded as the boolean
`True` and a non-flag keyword is never recorded as a boolean).  (b) When the
keyword loop stands on a flag keyword with no following `(`, the returned
command records its presence in the flag set and records nothing for it in
the value mapping; (c) when it stands on a non-flag, non-segment keyword
followed by `(`, the returned command records a value for it and the keyword
is absent from the flag set. -/
theorem Ex.flag_value_disjointness :
    (∀ fuel toks cmd', Ex.parse fuel toks = some (.ok cmd') →
      Ex.CmdOK cmd') ∧
    (∀ fuel toks pos cmd cmd' kw,
      (Ex.currentTok toks pos).type = .KEYWORD →
      (Ex.currentTok toks pos).value = kw →
      Ex.CmdOK cmd →
      Ex.kwLoop (fuel + 1) toks pos cmd = some (.ok cmd') →
      (kw ∈ Ex.FLAG_KEYWORDS →
        (Ex.currentTok toks (pos + 1)).type ≠ .LPAREN →
        kw ∈ cmd'.flags ∧ ∀ p ∈ cmd'.keywords, p.1 ≠ kw) ∧
      (kw ∉ Ex.FLAG_KEYWORDS → kw ∉ Ex.SEGMENT_NAMES →
        (Ex.currentTok toks (pos + 1)).type = .LPAREN →
        (Ex.assocGet cmd'.keywords kw).isSome ∧ kw ∉ cmd'.flags)) := by
  constructor
  · intro fuel toks cmd' h
    simp only [Ex.parse] at h
    split_ifs at h with h1
    · simp at h
    · cases hvl : Ex.parse_value_list fuel toks 1 with
      | none => simp [hvl] at h
      | some res =>
        cases res with
        | error e => simp [hvl] at h
        | ok pr =>
          obtain ⟨userids, pos1⟩ := pr
          simp only [hvl] at h
          refine (Ex.parse_invariants fuel).2.2 _ _ _ _ h ⟨?_, ?_, ?_⟩ <;>
            intro x hx <;> simp at hx
  · intro fuel toks pos cmd cmd' kw ht hv hcmd h
    subst hv
    have hcmd' : Ex.CmdOK cmd' ∧ True := by
      exact ⟨(Ex.parse_invariants (fuel + 1)).2.2 _ _ _ _ h hcmd, trivial⟩
    constructor
    · intro hf hnp
      rw [Ex.kwLoop] at h
      rw [if_neg (by rw [ht]; simp), if_pos ht, if_pos hf] at h
      obtain ⟨m1, -⟩ := Ex.kwLoop_mono _ _ _ _ _ h
      refine ⟨m1 _ (Ex.mem_setAdd_self _ _), ?_⟩
      intro p hp hpk
      exact absurd (hpk ▸ hf) (hcmd'.1.2.1 p hp)
    · intro hf hs hp
      rw [Ex.kwLoop] at h
      rw [if_neg (by rw [ht]; simp), if_pos ht, if_neg hf, if_neg hs,
        if_pos hp] at h
      cases hvl : Ex.parse_value_list fuel toks (pos + 1) with
      | none => simp [hvl] at h
      | some res =>
        cases res with
        | error e => simp [hvl] at h
        | ok pr =>
          obtain ⟨vals, pos2⟩ := pr
          simp only [hvl] at h
          obtain ⟨-, m2⟩ := Ex.kwLoop_mono _ _ _ _ _ h
          refine ⟨m2 _ ?_, ?_⟩
          · rw [Ex.assocGet_set_self]
            simp
          · intro hmem
            exact absurd (hcmd'.1.1 _ hmem) hf

/-- Witness for C7 at the token list of `ADDUSER (A) SPECIAL`: stepping the
keyword loop on the flag keyword SPECIAL records it in the flag set and
keeps the value mapping empty of it. -/
theorem Ex.flag_value_disjointness_witness :
    "SPECIAL".toList ∈
      (⟨["A".toList], [], [], ["SPECIAL".toList]⟩ :
        Ex.AddUserCommand).flags ∧
    ∀ p ∈ (⟨["A".toList], [], [], ["SPECIAL".toList]⟩ :
        Ex.AddUserCommand).keywords, p.1 ≠ "SPECIAL".toList :=
  ((Ex.flag_value_disjointness).2 1
    [⟨.COMMAND, "ADDUSER".toList, 1, 1⟩, ⟨.LPAREN, ['('], 1, 9⟩,
     ⟨.IDENTIFIER, "A".toList, 1, 10⟩, ⟨.RPAREN, [')'], 1, 11⟩,
     ⟨.KEYWORD, "SPECIAL".toList, 1, 13⟩, ⟨.EOF, [], 1, 20⟩]
    4 ⟨["A".toList], [], [], []⟩ ⟨["A".toList], [], [], ["SPECIAL".toList]⟩
    ("SPECIAL".toList) (by rfl) (by rfl)
    ⟨by intro x hx; simp at hx, by intro p hp; simp at hp,
     by intro p hp; simp at hp⟩
    (by rfl)).1 (by decide) (by decide)

namespace Ex

theorem skipWs_rem : ∀ (rem : List Char) (l k : Nat),
    (skipWs rem l k).1 = rem.dropWhile wsChar := by
  intro rem
  induction rem with
  | nil => intro l k; simp [skipWs]
  | cons c rest ih =>
    intro l k
    by_cases h : wsChar c <;>
      simp [skipWs, h, List.dropWhile_cons, ih, Srv.advChar]

/-- Where the comment scan ends: the input right after the closing `*/`. -/
def comEnd : List Char → Option (List Char)
  | [] => none
  | c :: rest =>
    if c = '*' ∧ rest.head? = some '/' then some rest.tail else comEnd rest

theorem comEnd_le : ∀ {rem r : List Char}, comEnd rem = some r →
    r.length ≤ rem.length := by
  intro rem
  induction rem with
  | nil => intro r h; simp [comEnd] at h
  | cons c rest ih =>
    intro r h
    rw [comEnd] at h
    split_ifs at h with hc
    · obtain rfl := Option.some.inj h
      simp [List.length_tail]
      omega
    · exact le_trans (ih h) (by simp)

theorem skipComGo_rem : ∀ (rem : List Char) (l k : Nat),
    (skipComGo rem l k).1 = match comEnd rem with
      | some r => r
      | none => [] := by
  intro rem
  induction rem with
  | nil => intro l k; simp [skipComGo, comEnd]
  | cons c rest ih =>
    intro l k
    by_cases h : c = '*' ∧ rest.head? = some '/'
    · simp [skipComGo, comEnd, h]
    · simp [skipComGo, comEnd, h, ih, Srv.advChar]

theorem readIdentGoEx_eq : ∀ (rem : List Char) (k : Nat) (acc : List Char),
    readIdentGo rem k acc =
      (acc ++ rem.takeWhile identChar, rem.dropWhile identChar,
       k + (rem.takeWhile identChar).length) := by
  intro rem
  induction rem with
  | nil => intro k acc; simp [readIdentGo]
  | cons c rest ih =>
    intro k acc
    by_cases h : identChar c <;>
      simp [readIdentGo, h, List.takeWhile_cons, List.dropWhile_cons, ih] <;>
      omega

/-- Where a string body ends: the input right after the closing quote
(`none` when the quote is never closed). -/
def strEnd : List Char → Option (List Char)
  | [] => none
  | c :: rest =>
    if c = Srv.quoteChar then
      match rest with
      | c2 :: rest2 =>
        if c2 = Srv.quoteChar then strEnd rest2 else some (c2 :: rest2)
      | [] => some []
    else strEnd rest

theorem strEnd_cons (c : Char) (rest : List Char) :
    strEnd (c :: rest) =
      if c = Srv.quoteChar then
        if rest.head? = some Srv.quoteChar then strEnd rest.tail
        else some rest
      else strEnd rest := by
  match rest with
  | [] => simp [strEnd]
  | c2 :: rest2 => by_cases h2 : c2 = Srv.quoteChar <;> simp [strEnd, h2]

theorem strEnd_le_aux : ∀ (n : Nat) (rem : List Char), rem.length ≤ n →
    ∀ {r : List Char}, strEnd rem = some r → r.length ≤ rem.length := by
  intro n
  induction n with
  | zero =>
    intro rem hle r h
    match rem with
    | [] => simp [strEnd] at h
  | succ n ih =>
    intro rem hle r h
    match rem with
    | [] => simp [strEnd] at h
    | c :: rest =>
      rw [strEnd_cons] at h
      split_ifs at h with hc hc2
      · have := ih rest.tail
          (by rw [List.length_tail]; simp at hle; omega) h
        rw [List.length_tail] at this
        simp
        omega
      · obtain rfl := Option.some.inj h
        simp
      · have := ih rest (by simp at hle ⊢; omega) h
        simp
        omega

theorem strEnd_le {rem r : List Char} (h : strEnd rem = some r) :
    r.length ≤ rem.length :=
  strEnd_le_aux rem.length rem le_rfl h

/-- The string value read by `readStrGo` and the remaining input depend only
on the input characters, not on the position counters. -/
theorem readStrGo_parts_aux : ∀ (n : Nat) (rem : List Char),
    rem.length ≤ n → ∀ (l k l' k' : Nat) (acc : List Char),
    (Srv.readStrGo rem l k acc).1 = (Srv.readStrGo rem l' k' acc).1 ∧
    (Srv.readStrGo rem l k acc).2.1 = (Srv.readStrGo rem l' k' acc).2.1 := by
  intro n
  induction n with
  | zero =>
    intro rem hle l k l' k' acc
    match rem with
    | [] => simp [Srv.readStrGo]
  | succ n ih =>
    intro rem hle l k l' k' acc
    match rem with
    | [] => simp [Srv.readStrGo]
    | c :: rest =>
      rw [Srv.readStrGo_cons, Srv.readStrGo_cons]
      split_ifs with hc hh
      · exact ih rest.tail
          (by rw [List.length_tail]; simp at hle; omega) _ _ _ _ _
      · simp
      · exact ih rest (by simp at hle ⊢; omega) _ _ _ _ _

theorem readStrGo_parts (rem : List Char) (l k l' k' : Nat)
    (acc : List Char) :
    (Srv.readStrGo rem l k acc).1 = (Srv.readStrGo rem l' k' acc).1 ∧
    (Srv.readStrGo rem l k acc).2.1 = (Srv.readStrGo rem l' k' acc).2.1 :=
  readStrGo_parts_aux rem.length rem le_rfl l k l' k' acc

/-- With the closing quote inside `a`, `readStrGo` on `a ++ x` reads the
same value as on `a` alone and leaves `strEnd`-remainder plus `x`. -/
theorem readStrGo_append_aux : ∀ (n : Nat) (a : List Char),
    a.length ≤ n → ∀ {r : List Char},
    strEnd a = some r → ∀ (x : List Char),
    x.head? ≠ some Srv.quoteChar → ∀ (l k : Nat) (acc : List Char),
    (Srv.readStrGo (a ++ x) l k acc).1 = (Srv.readStrGo a l k acc).1 ∧
    (Srv.readStrGo (a ++ x) l k acc).2.1 = r ++ x := by
  intro n
  induction n with
  | zero =>
    intro a hle r h x hx l k acc
    match a with
    | [] => simp [strEnd] at h
  | succ n ih =>
    intro a hle r h x hx l k acc
    match a with
    | [] => simp [strEnd] at h
    | c :: rest =>
      rw [strEnd_cons] at h
      rw [List.cons_append, Srv.readStrGo_cons, Srv.readStrGo_cons]
      split_ifs at h with hc hc2
      · obtain ⟨r0, rs, rfl⟩ : ∃ r0 rs, rest = r0 :: rs := by
          cases rest with
          | nil => simp at hc2
          | cons a b => exact ⟨a, b, rfl⟩
        simp only [List.head?_cons] at hc2
        have hh : ((r0 :: rs) ++ x).head? = some Srv.quoteChar := by
          simp [hc2]
        have hh2 : (r0 :: rs).head? = some Srv.quoteChar := by simp [hc2]
        rw [if_pos hc, if_pos hc, if_pos hh, if_pos hh2]
        simp only [List.tail_cons] at h ⊢
        have := ih rs (by simp at hle ⊢; omega) h x hx l (k + 2)
          (acc ++ [Srv.quoteChar])
        simpa using this
      · obtain rfl := Option.some.inj h
        have hh : (rest ++ x).head? ≠ some Srv.quoteChar := by
          cases rest with
          | nil => simpa using hx
          | cons a b => simpa using (by simpa using hc2)
        rw [if_pos hc, if_pos hc, if_neg hh, if_neg hc2]
        simp
      · rw [if_neg hc, if_neg hc]
        exact ih rest (by simp at hle ⊢; omega) h x hx _ _ (acc ++ [c])

theorem readStrGo_append (a : List Char) {r : List Char}
    (h : strEnd a = some r) (x : List Char)
    (hx : x.head? ≠ some Srv.quoteChar) (l k : Nat) (acc : List Char) :
    (Srv.readStrGo (a ++ x) l k acc).1 = (Srv.readStrGo a l k acc).1 ∧
    (Srv.readStrGo (a ++ x) l k acc).2.1 = r ++ x :=
  readStrGo_append_aux a.length a le_rfl h x hx l k acc

end Ex

namespace Ex

theorem dropWhile_len_le (p : Char → Bool) : ∀ (l : List Char),
    (l.dropWhile p).length ≤ l.length := by
  intro l
  induction l with
  | nil => simp
  | cons c rest ih =>
    rw [List.dropWhile_cons]
    split_ifs with h
    · simp
      omega
    · simp

theorem skipComGo_len (rem : List Char) (l k : Nat) :
    (skipComGo rem l k).1.length ≤ rem.length := by
  rw [skipComGo_rem]
  cases h : comEnd rem with
  | none => simp
  | some r => simpa using comEnd_le h

theorem readStrGo_len_aux : ∀ (n : Nat) (rem : List Char),
    rem.length ≤ n → ∀ (l k : Nat) (acc : List Char),
    (Srv.readStrGo rem l k acc).2.1.length ≤ rem.length := by
  intro n
  induction n with
  | zero =>
    intro rem hle l k acc
    match rem with
    | [] => simp [Srv.readStrGo]
  | succ n ih =>
    intro rem hle l k acc
    match rem with
    | [] => simp [Srv.readStrGo]
    | c :: rest =>
      rw [Srv.readStrGo_cons]
      split_ifs with hc hh
      · have := ih rest.tail (by rw [List.length_tail]; simp at hle; omega)
          l (k + 2) (acc ++ [Srv.quoteChar])
        rw [List.length_tail] at this
        simp
        omega
      · simp
      · have := ih rest (by simp at hle ⊢; omega) (Srv.advChar c l k).1
          (Srv.advChar c l k).2 (acc ++ [c])
        simp
        omega

theorem readStrGo_len (rem : List Char) (l k : Nat) (acc : List Char) :
    (Srv.readStrGo rem l k acc).2.1.length ≤ rem.length :=
  readStrGo_len_aux rem.length rem le_rfl l k acc

theorem identStart_identChar {c : Char} (h : identStart c = true) :
    identChar c = true := by
  simp only [identStart, Bool.or_eq_true] at h
  simp only [identChar, Bool.or_eq_true]
  tauto

/-- Every successful step of the example lexer consumes at least one
character (this lexer has no `%`-style stuck state). -/
theorem lexStep_progress : ∀ (st : Srv.LexSt) (r : Option Tok × Srv.LexSt),
    lexStep st = some r → r.2.rem.length < st.rem.length := by
  intro ⟨rem, l, k⟩ r h
  match rem with
  | [] => simp [lexStep] at h
  | c :: rest =>
    rw [lexStep] at h
    dsimp only at h
    split_ifs at h with h1 h2 h3 h4 h5 h6 h7
    · rcases hsw : skipWs (c :: rest) l k with ⟨rem2, l2, k2⟩
      rw [hsw] at h
      obtain rfl := Option.some.inj h
      have hr := skipWs_rem (c :: rest) l k
      rw [hsw] at hr
      dsimp only at hr ⊢
      rw [hr, List.dropWhile_cons, if_pos h1]
      have := dropWhile_len_le wsChar rest
      simp
      omega
    · rcases hsc : skipComGo rest.tail l (k + 2) with ⟨rem2, l2, k2⟩
      rw [hsc] at h
      obtain rfl := Option.some.inj h
      have hr := skipComGo_len rest.tail l (k + 2)
      rw [hsc] at hr
      dsimp only at hr ⊢
      rw [List.length_tail] at hr
      simp
      omega
    · obtain rfl := Option.some.inj h
      simp
    · obtain rfl := Option.some.inj h
      simp
    · obtain rfl := Option.some.inj h
      simp
    · rcases hst : Srv.readStrGo rest l (k + 1) [] with ⟨v, rem2, l2, k2⟩
      rw [hst] at h
      obtain rfl := Option.some.inj h
      have hr := readStrGo_len rest l (k + 1) []
      rw [hst] at hr
      dsimp only at hr ⊢
      simp
      omega
    · rw [readIdentGoEx_eq (c :: rest) k []] at h
      obtain rfl := Option.some.inj h
      dsimp only
      rw [List.dropWhile_cons, if_pos (identStart_identChar h7)]
      have := dropWhile_len_le identChar rest
      simp
      omega
    · obtain rfl := Option.some.inj h
      simp

/-- The example lexer as a total function on lexer states (justified by
`lexStep_progress`); `tokenizeFuel` computes exactly this list whenever
its fuel exceeds the input length. -/
def tokRun (st : Srv.LexSt) : List Tok :=
  match h : lexStep st with
  | none => [⟨.EOF, [], st.line, st.col⟩]
  | some (t?, st') => t?.toList ++ tokRun st'
termination_by st.rem.length
decreasing_by exact lexStep_progress st (t?, st') h

theorem tokRun_none {st : Srv.LexSt} (h : lexStep st = none) :
    tokRun st = [⟨.EOF, [], st.line, st.col⟩] := by
  rw [tokRun]
  split
  · rfl
  · rename_i t? st' heq
    rw [h] at heq
    exact absurd heq (by simp)

theorem tokRun_some {st : Srv.LexSt} {t? : Option Tok} {st' : Srv.LexSt}
    (h : lexStep st = some (t?, st')) :
    tokRun st = t?.toList ++ tokRun st' := by
  rw [tokRun]
  split
  · rename_i heq
    rw [h] at heq
    exact absurd heq (by simp)
  · rename_i u? su heq
    rw [h] at heq
    obtain ⟨rfl, rfl⟩ := Prod.mk.injEq .. ▸ Option.some.inj heq
    rfl

theorem tokenizeFuel_tokRun : ∀ (fuel : Nat) (st : Srv.LexSt),
    st.rem.length < fuel → ∀ (acc : List Tok),
    tokenizeFuel fuel st acc = some (acc ++ tokRun st) := by
  intro fuel
  induction fuel with
  | zero => intro st h; omega
  | succ n ih =>
    intro st h acc
    rw [tokenizeFuel]
    cases hls : lexStep st with
    | none => rw [tokRun_none hls]
    | some p =>
      obtain ⟨t?, st'⟩ := p
      rw [tokRun_some hls]
      dsimp only
      have hlt : st'.rem.length < st.rem.length :=
        lexStep_progress st (t?, st') hls
      rw [ih st' (by omega) (acc ++ t?.toList)]
      simp

/-- The example `tokenize` always succeeds, returning `tokRun`. -/
theorem tokenize_eq_tokRun (src : List Char) :
    tokenize src = some (tokRun ⟨src, 1, 1⟩) := by
  have := tokenizeFuel_tokRun (src.length + 1) ⟨src, 1, 1⟩ (by simp) []
  simpa [tokenize] using this

end Ex

namespace Ex

/-- The position-erased signature of a token: kind and text. -/
def sigT (t : Tok) : TokType × List Char := (t.type, t.value)

/-- The parser-relevant signature of a token list: continuations dropped
(as `Parser.__init__` does), positions erased. -/
def fsig (ts : List Tok) : List (TokType × List Char) :=
  (filterCont ts).map sigT

theorem fsig_append (a b : List Tok) : fsig (a ++ b) = fsig a ++ fsig b := by
  simp [fsig, filterCont]

theorem fsig_toList_of_sig {t? t?' : Option Tok}
    (h : t?.map sigT = t?'.map sigT) : fsig t?.toList = fsig t?'.toList := by
  cases t? with
  | none => cases t?' with
    | none => rfl
    | some b => simp at h
  | some a =>
    cases t?' with
    | none => simp at h
    | some b =>
      have h2 : sigT a = sigT b := Option.some.inj h
      have ht : a.type = b.type := congrArg Prod.fst h2
      have hv : a.value = b.value := congrArg Prod.snd h2
      by_cases hc : a.type = .CONTINUATION
      · have hcb : b.type = .CONTINUATION := ht ▸ hc
        simp [fsig, filterCont, hc, hcb]
      · have hcb : ¬b.type = .CONTINUATION := fun hb => hc (ht.trans hb)
        simp [fsig, filterCont, hc, hcb, sigT, ht, hv]

theorem classifyWord_sig (v : List Char) (l k l' k' : Nat) :
    sigT (classifyWord v l k) = sigT (classifyWord v l' k') := by
  simp only [classifyWord]
  split_ifs <;> rfl

/-- One lexer step from the same remaining input at two different
positions: both stop, or both emit signature-equal output and leave the
same remaining input. -/
theorem lexStep_sig : ∀ (rem : List Char) (l k l' k' : Nat),
    (lexStep ⟨rem, l, k⟩ = none ∧ lexStep ⟨rem, l', k'⟩ = none) ∨
    (∃ t? t?' st1 st2, lexStep ⟨rem, l, k⟩ = some (t?, st1) ∧
      lexStep ⟨rem, l', k'⟩ = some (t?', st2) ∧
      t?.map sigT = t?'.map sigT ∧ st1.rem = st2.rem) := by
  intro rem l k l' k'
  match rem with
  | [] => exact Or.inl ⟨rfl, rfl⟩
  | c :: rest =>
    right
    rw [lexStep, lexStep]
    dsimp only
    split_ifs with h1 h2 h3 h4 h5 h6 h7
    · rcases hsw : skipWs (c :: rest) l k with ⟨rem2, l2, k2⟩
      rcases hsw' : skipWs (c :: rest) l' k' with ⟨rem2', l2', k2'⟩
      refine ⟨none, none, _, _, rfl, rfl, rfl, ?_⟩
      have e1 := skipWs_rem (c :: rest) l k
      have e2 := skipWs_rem (c :: rest) l' k'
      rw [hsw] at e1
      rw [hsw'] at e2
      dsimp only at e1 e2 ⊢
      rw [e1, e2]
    · rcases hsc : skipComGo rest.tail l (k + 2) with ⟨rem2, l2, k2⟩
      rcases hsc' : skipComGo rest.tail l' (k' + 2) with ⟨rem2', l2', k2'⟩
      refine ⟨none, none, _, _, rfl, rfl, rfl, ?_⟩
      have e1 := skipComGo_rem rest.tail l (k + 2)
      have e2 := skipComGo_rem rest.tail l' (k' + 2)
      rw [hsc] at e1
      rw [hsc'] at e2
      dsimp only at e1 e2 ⊢
      rw [e1, e2]
    · exact ⟨_, _, _, _, rfl, rfl, rfl, rfl⟩
    · exact ⟨_, _, _, _, rfl, rfl, rfl, rfl⟩
    · exact ⟨_, _, _, _, rfl, rfl, rfl, rfl⟩
    · rcases hst : Srv.readStrGo rest l (k + 1) [] with ⟨v, rem2, l2, k2⟩
      rcases hst' : Srv.readStrGo rest l' (k' + 1) [] with ⟨v', rem2', l2', k2'⟩
      have hp := readStrGo_parts rest l (k + 1) l' (k' + 1) []
      rw [hst, hst'] at hp
      obtain ⟨hv, hr⟩ := hp
      dsimp only at hv hr
      refine ⟨_, _, _, _, rfl, rfl, ?_, ?_⟩
      · simp [sigT, hv]
      · dsimp only
        rw [hr]
    · rcases hid : readIdentGo (c :: rest) k [] with ⟨v, rem2, k2⟩
      rcases hid' : readIdentGo (c :: rest) k' [] with ⟨v', rem2', k2'⟩
      have e1 := readIdentGoEx_eq (c :: rest) k []
      have e2 := readIdentGoEx_eq (c :: rest) k' []
      rw [hid] at e1
      rw [hid'] at e2
      have hv : v = v' := by
        have a1 : v = [] ++ (c :: rest).takeWhile identChar :=
          congrArg (fun p => p.1) e1
        have a2 : v' = [] ++ (c :: rest).takeWhile identChar :=
          congrArg (fun p => p.1) e2
        rw [a1, a2]
      have hr : rem2 = rem2' := by
        have a1 : rem2 = (c :: rest).dropWhile identChar :=
          congrArg (fun p => p.2.1) e1
        have a2 : rem2' = (c :: rest).dropWhile identChar :=
          congrArg (fun p => p.2.1) e2
        rw [a1, a2]
      subst hv
      subst hr
      refine ⟨_, _, _, _, rfl, rfl, ?_, rfl⟩
      exact congrArg (Option.map sigT ∘ some) rfl |>.trans
        (congrArg some (classifyWord_sig v l k l' k'))
    · exact ⟨_, _, _, _, rfl, rfl, rfl, rfl⟩

/-- `fsig` of a lexer run depends only on the remaining input, not on the
starting position. -/
theorem tokRun_sig_aux : ∀ (n : Nat) (rem : List Char), rem.length ≤ n →
    ∀ (l k l' k' : Nat),
    fsig (tokRun ⟨rem, l, k⟩) = fsig (tokRun ⟨rem, l', k'⟩) := by
  intro n
  induction n with
  | zero =>
    intro rem hle l k l' k'
    match rem with
    | [] =>
      rw [tokRun_none (by rfl), tokRun_none (by rfl)]
      simp [fsig, filterCont, sigT]
  | succ n ih =>
    intro rem hle l k l' k'
    rcases lexStep_sig rem l k l' k' with ⟨h1, h2⟩ |
      ⟨t?, t?', st1, st2, h1, h2, hsig, hrem⟩
    · rw [tokRun_none h1, tokRun_none h2]
      simp [fsig, filterCont, sigT]
    · rw [tokRun_some h1, tokRun_some h2, fsig_append, fsig_append,
        fsig_toList_of_sig hsig]
      obtain ⟨r1, l1, k1⟩ := st1
      obtain ⟨r2, l2, k2⟩ := st2
      dsimp only at hrem
      subst hrem
      have hlt : r1.length < rem.length := lexStep_progress ⟨rem, l, k⟩ _ h1
      rw [ih r1 (by omega) l1 k1 l2 k2]

theorem tokRun_sig (rem : List Char) (l k l' k' : Nat) :
    fsig (tokRun ⟨rem, l, k⟩) = fsig (tokRun ⟨rem, l', k'⟩) :=
  tokRun_sig_aux rem.length rem le_rfl l k l' k'

end Ex

namespace Ex

/-- The parser-relevant signature of lexing the given input (position
independent by `tokRun_sig`). -/
def lexSig (rem : List Char) : List (TokType × List Char) :=
  fsig (tokRun ⟨rem, 0, 0⟩)

theorem lexSig_eq (rem : List Char) (l k : Nat) :
    fsig (tokRun ⟨rem, l, k⟩) = lexSig rem :=
  tokRun_sig rem l k 0 0

theorem lexSig_step {rem : List Char} {t? : Option Tok} {st' : Srv.LexSt}
    (h : lexStep ⟨rem, 0, 0⟩ = some (t?, st')) :
    lexSig rem = fsig t?.toList ++ lexSig st'.rem := by
  have h2 : fsig (tokRun st') = lexSig st'.rem :=
    lexSig_eq st'.rem st'.line st'.col
  rw [lexSig, tokRun_some h, fsig_append, h2]

theorem lexSig_nil : lexSig [] = [(.EOF, ([] : List Char))] := by
  rw [lexSig,
    tokRun_none (show lexStep ⟨[], 0, 0⟩ = none from rfl)]
  rfl

theorem dropWhile_append_of_ne (p : Char → Bool) :
    ∀ (a x : List Char), a.dropWhile p ≠ [] →
    (a ++ x).dropWhile p = a.dropWhile p ++ x := by
  intro a
  induction a with
  | nil => intro x h; simp at h
  | cons c rest ih =>
    intro x h
    rw [List.dropWhile_cons] at h
    rw [List.cons_append, List.dropWhile_cons, List.dropWhile_cons]
    split_ifs at h ⊢ with hc
    · exact ih x h
    · rfl

theorem takeWhile_append_of_ne (p : Char → Bool) :
    ∀ (a x : List Char), a.dropWhile p ≠ [] →
    (a ++ x).takeWhile p = a.takeWhile p := by
  intro a
  induction a with
  | nil => intro x h; simp at h
  | cons c rest ih =>
    intro x h
    rw [List.dropWhile_cons] at h
    rw [List.cons_append, List.takeWhile_cons, List.takeWhile_cons]
    split_ifs at h ⊢ with hc
    · rw [ih x h]
    · rfl

theorem dropWhile_append_of_all (p : Char → Bool) :
    ∀ (a x : List Char), a.dropWhile p = [] →
    (a ++ x).dropWhile p = x.dropWhile p := by
  intro a
  induction a with
  | nil => intro x _; rfl
  | cons c rest ih =>
    intro x h
    rw [List.dropWhile_cons] at h
    rw [List.cons_append, List.dropWhile_cons]
    split_ifs at h ⊢ with hc
    exact ih x h

theorem takeWhile_append_of_all (p : Char → Bool) :
    ∀ (a x : List Char), a.dropWhile p = [] →
    (a ++ x).takeWhile p = a ++ x.takeWhile p := by
  intro a
  induction a with
  | nil => intro x _; rfl
  | cons c rest ih =>
    intro x h
    rw [List.dropWhile_cons] at h
    rw [List.cons_append, List.takeWhile_cons]
    split_ifs at h ⊢ with hc
    rw [ih x h]
    rfl

theorem lexSig_dropWs : ∀ (rem : List Char),
    lexSig rem = lexSig (rem.dropWhile wsChar) := by
  intro rem
  match rem with
  | [] => rfl
  | c :: rest =>
    by_cases hc : wsChar c
    · rcases hsw : skipWs (c :: rest) 0 0 with ⟨rem2, l2, k2⟩
      have e := skipWs_rem (c :: rest) 0 0
      rw [hsw] at e
      dsimp only at e
      have hstep : lexStep ⟨c :: rest, 0, 0⟩ = some (none, ⟨rem2, l2, k2⟩) := by
        rw [lexStep]
        dsimp only
        rw [if_pos hc, hsw]
      have h2 := lexSig_step hstep
      dsimp only at h2
      rw [h2, e]
      rfl
    · rw [List.dropWhile_cons, if_neg hc]

theorem lexSig_allWs_append {a : List Char} (h : a.dropWhile wsChar = [])
    (x : List Char) : lexSig (a ++ x) = lexSig x := by
  rw [lexSig_dropWs (a ++ x), dropWhile_append_of_all wsChar a x h,
    ← lexSig_dropWs x]

theorem comEnd_append : ∀ (u : List Char) {r0 : List Char},
    comEnd u = some r0 → ∀ (x : List Char), comEnd (u ++ x) = some (r0 ++ x) := by
  intro u
  induction u with
  | nil => intro r0 h; simp [comEnd] at h
  | cons c rest ih =>
    intro r0 h x
    rw [comEnd] at h
    rw [List.cons_append, comEnd]
    split_ifs at h with hc
    · obtain rfl := Option.some.inj h
      obtain ⟨rfl, hh⟩ := hc
      match rest with
      | d :: rest2 =>
        obtain rfl := Option.some.inj hh
        rw [if_pos ⟨rfl, by simp⟩]
        simp
    · have hne : rest ≠ [] := by
        intro hr
        rw [hr] at h
        simp [comEnd] at h
      match rest with
      | d :: rest2 =>
        rw [if_neg (by simpa using hc)]
        exact ih h x

/-- A line on which every string literal and comment opened is also closed:
the hypothesis under which continuation folding preserves token signatures. -/
inductive CleanLine : List Char → Prop where
  | nil : CleanLine []
  | quote (rest rest₀ : List Char) : strEnd rest = some rest₀ →
      CleanLine rest₀ → CleanLine (Srv.quoteChar :: rest)
  | comment (rest rest₀ : List Char) : rest.head? = some '*' →
      comEnd rest.tail = some rest₀ → CleanLine rest₀ →
      CleanLine ('/' :: rest)
  | other (c : Char) (rest : List Char) : c ≠ Srv.quoteChar →
      ¬(c = '/' ∧ rest.head? = some '*') → CleanLine rest →
      CleanLine (c :: rest)

theorem cleanLine_other_inv {c : Char} {rest : List Char}
    (h : CleanLine (c :: rest)) (h1 : c ≠ Srv.quoteChar)
    (h2 : ¬(c = '/' ∧ rest.head? = some '*')) : CleanLine rest := by
  cases h with
  | quote _ _ he hc => exact absurd rfl h1
  | comment _ _ hh he hc => exact absurd ⟨rfl, hh⟩ h2
  | other _ _ _ _ hc => exact hc

theorem wsChar_ne_quote {c : Char} (h : wsChar c = true) :
    c ≠ Srv.quoteChar := by
  simp only [wsChar, Bool.or_eq_true, decide_eq_true_eq] at h
  rcases h with ((rfl | rfl) | rfl) | rfl <;> decide

theorem wsChar_ne_slash {c : Char} (h : wsChar c = true) : c ≠ '/' := by
  simp only [wsChar, Bool.or_eq_true, decide_eq_true_eq] at h
  rcases h with ((rfl | rfl) | rfl) | rfl <;> decide

theorem identChar_ne_quote {c : Char} (h : identChar c = true) :
    c ≠ Srv.quoteChar := by
  intro he
  rw [he] at h
  exact absurd h (by decide)

theorem identChar_ne_slash {c : Char} (h : identChar c = true) : c ≠ '/' := by
  intro he
  rw [he] at h
  exact absurd h (by decide)

theorem cleanLine_dropWs : ∀ {a : List Char}, CleanLine a →
    CleanLine (a.dropWhile wsChar) := by
  intro a
  induction a with
  | nil => intro h; exact h
  | cons c rest ih =>
    intro h
    rw [List.dropWhile_cons]
    split_ifs with hc
    · exact ih (cleanLine_other_inv h (wsChar_ne_quote hc)
        (fun hx => wsChar_ne_slash hc hx.1))
    · exact h

theorem cleanLine_dropIdent : ∀ {a : List Char}, CleanLine a →
    CleanLine (a.dropWhile identChar) := by
  intro a
  induction a with
  | nil => intro h; exact h
  | cons c rest ih =>
    intro h
    rw [List.dropWhile_cons]
    split_ifs with hc
    · exact ih (cleanLine_other_inv h (identChar_ne_quote hc)
        (fun hx => identChar_ne_slash hc hx.1))
    · exact h

end Ex

namespace Ex

theorem cleanLine_cases {a : List Char} (h : CleanLine a) :
    a = [] ∨
    (∃ rest r0, a = Srv.quoteChar :: rest ∧ strEnd rest = some r0 ∧
      CleanLine r0) ∨
    (∃ rest r0, a = '/' :: rest ∧ rest.head? = some '*' ∧
      comEnd rest.tail = some r0 ∧ CleanLine r0) ∨
    (∃ c rest, a = c :: rest ∧ c ≠ Srv.quoteChar ∧
      ¬(c = '/' ∧ rest.head? = some '*') ∧ CleanLine rest) := by
  cases h with
  | nil => exact Or.inl rfl
  | quote rest r0 he hc => exact Or.inr (Or.inl ⟨rest, r0, rfl, he, hc⟩)
  | comment rest r0 hh he hc =>
    exact Or.inr (Or.inr (Or.inl ⟨rest, r0, rfl, hh, he, hc⟩))
  | other c rest h1 h2 hc =>
    exact Or.inr (Or.inr (Or.inr ⟨c, rest, rfl, h1, h2, hc⟩))

theorem lexStep_contEx {u : List Char}
    (h : u.head? = none ∨ u.head? = some '\n' ∨ u.head? = some '\r')
    (l k : Nat) :
    lexStep ⟨'-' :: u, l, k⟩ =
      some (some ⟨.CONTINUATION, ['-'], l, k⟩, ⟨u, l, k + 1⟩) := by
  rw [lexStep]
  dsimp only
  rw [if_neg (by decide), if_neg (fun hx => absurd hx.1 (by decide)),
    if_pos ⟨rfl, h⟩]

theorem lexStep_parenL (u : List Char) (l k : Nat) :
    lexStep ⟨'(' :: u, l, k⟩ =
      some (some ⟨.LPAREN, ['('], l, k⟩, ⟨u, l, k + 1⟩) := by
  rw [lexStep]
  dsimp only
  rw [if_neg (by decide), if_neg (fun hx => absurd hx.1 (by decide)),
    if_neg (fun hx => absurd hx.1 (by decide)), if_pos rfl]

theorem lexStep_parenR (u : List Char) (l k : Nat) :
    lexStep ⟨')' :: u, l, k⟩ =
      some (some ⟨.RPAREN, [')'], l, k⟩, ⟨u, l, k + 1⟩) := by
  rw [lexStep]
  dsimp only
  rw [if_neg (by decide), if_neg (fun hx => absurd hx.1 (by decide)),
    if_neg (fun hx => absurd hx.1 (by decide)), if_neg (by decide),
    if_pos rfl]

theorem lexStep_quoteEx (u : List Char) (l k : Nat) :
    lexStep ⟨Srv.quoteChar :: u, l, k⟩ =
      some (some ⟨.STRING, (Srv.readStrGo u l (k + 1) []).1, l, k⟩,
        ⟨(Srv.readStrGo u l (k + 1) []).2.1,
         (Srv.readStrGo u l (k + 1) []).2.2.1,
         (Srv.readStrGo u l (k + 1) []).2.2.2⟩) := by
  rw [lexStep]
  dsimp only
  rw [if_neg (by decide), if_neg (fun hx => absurd hx.1 (by decide)),
    if_neg (fun hx => absurd hx.1 (by decide)), if_neg (by decide),
    if_neg (by decide), if_pos rfl]

theorem lexStep_comEx {u : List Char} (h : u.head? = some '*') (l k : Nat) :
    lexStep ⟨'/' :: u, l, k⟩ = some (none,
      ⟨(skipComGo u.tail l (k + 2)).1, (skipComGo u.tail l (k + 2)).2.1,
        (skipComGo u.tail l (k + 2)).2.2⟩) := by
  rw [lexStep]
  dsimp only
  rw [if_neg (by decide), if_pos ⟨rfl, h⟩]

theorem identStart_not_ws {c : Char} (h : identStart c = true) :
    ¬ wsChar c = true := by
  intro hw
  simp only [wsChar, Bool.or_eq_true, decide_eq_true_eq] at hw
  rcases hw with ((rfl | rfl) | rfl) | rfl <;> exact absurd h (by decide)

theorem identStart_ne_slash {c : Char} (h : identStart c = true) :
    c ≠ '/' := by
  intro he
  rw [he] at h
  exact absurd h (by decide)

theorem identStart_ne_dash {c : Char} (h : identStart c = true) :
    c ≠ '-' := by
  intro he
  rw [he] at h
  exact absurd h (by decide)

theorem identStart_ne_lparen {c : Char} (h : identStart c = true) :
    ¬c = '(' := by
  intro he
  rw [he] at h
  exact absurd h (by decide)

theorem identStart_ne_rparen {c : Char} (h : identStart c = true) :
    ¬c = ')' := by
  intro he
  rw [he] at h
  exact absurd h (by decide)

theorem identStart_ne_quote {c : Char} (h : identStart c = true) :
    ¬c = Srv.quoteChar := by
  intro he
  rw [he] at h
  exact absurd h (by decide)

theorem lexStep_identEx {c : Char} (hid : identStart c = true)
    (u : List Char) (l k : Nat) :
    lexStep ⟨c :: u, l, k⟩ =
      some (some (classifyWord ((c :: u).takeWhile identChar) l k),
        ⟨(c :: u).dropWhile identChar, l,
         k + ((c :: u).takeWhile identChar).length⟩) := by
  rw [lexStep]
  dsimp only
  rw [if_neg (identStart_not_ws hid),
    if_neg (fun hx => identStart_ne_slash hid hx.1),
    if_neg (fun hx => identStart_ne_dash hid hx.1),
    if_neg (identStart_ne_lparen hid), if_neg (identStart_ne_rparen hid),
    if_neg (identStart_ne_quote hid), if_pos hid,
    readIdentGoEx_eq (c :: u) k []]
  rfl

theorem lexStep_elseEx {c : Char} {u : List Char} (h1 : ¬ wsChar c = true)
    (h2 : ¬(c = '/' ∧ u.head? = some '*'))
    (h3 : ¬(c = '-' ∧ (u.head? = none ∨ u.head? = some '\n' ∨
      u.head? = some '\r')))
    (h4 : ¬c = '(') (h5 : ¬c = ')') (h6 : ¬c = Srv.quoteChar)
    (h7 : ¬identStart c = true) (l k : Nat) :
    lexStep ⟨c :: u, l, k⟩ = some (none, ⟨u, l, k + 1⟩) := by
  rw [lexStep]
  dsimp only
  rw [if_neg h1, if_neg h2, if_neg h3, if_neg h4, if_neg h5, if_neg h6,
    if_neg h7]

theorem junction_base (r r' : List Char) (H : lexSig r = lexSig r') :
    lexSig (' ' :: '-' :: '\n' :: r) = lexSig (' ' :: r') := by
  have hd1 : (' ' :: '-' :: '\n' :: r).dropWhile wsChar = '-' :: '\n' :: r := by
    rw [List.dropWhile_cons, if_pos (by decide), List.dropWhile_cons,
      if_neg (by decide)]
  have hd2 : (' ' :: r').dropWhile wsChar = r'.dropWhile wsChar := by
    rw [List.dropWhile_cons, if_pos (by decide)]
  rw [lexSig_dropWs (' ' :: '-' :: '\n' :: r), hd1,
    lexSig_dropWs (' ' :: r'), hd2]
  have hstep := lexStep_contEx (u := '\n' :: r) (Or.inr (Or.inl rfl)) 0 0
  rw [lexSig_step hstep]
  dsimp only
  have hd3 : ('\n' :: r).dropWhile wsChar = r.dropWhile wsChar := by
    rw [List.dropWhile_cons, if_pos (by decide)]
  rw [lexSig_dropWs ('\n' :: r), hd3, ← lexSig_dropWs r, ← lexSig_dropWs r', H]
  rfl

end Ex

namespace Ex

theorem junction_aux : ∀ (n : Nat) (a : List Char), a.length ≤ n →
    CleanLine a → ∀ (r r' : List Char), lexSig r = lexSig r' →
    lexSig (a ++ ' ' :: '-' :: '\n' :: r) = lexSig (a ++ ' ' :: r') := by
  intro n
  induction n with
  | zero =>
    intro a hle hcl r r' H
    have ha : a = [] := List.eq_nil_of_length_eq_zero (Nat.le_zero.mp hle)
    subst ha
    exact junction_base r r' H
  | succ n ih =>
    intro a hle hcl r r' H
    match a with
    | [] => exact junction_base r r' H
    | c :: a1 =>
      simp only [List.length_cons] at hle
      by_cases hws : wsChar c
      · -- leading whitespace
        by_cases hall : (c :: a1).dropWhile wsChar = []
        · rw [lexSig_allWs_append hall (' ' :: '-' :: '\n' :: r),
            lexSig_allWs_append hall (' ' :: r')]
          exact junction_base r r' H
        · rw [lexSig_dropWs ((c :: a1) ++ ' ' :: '-' :: '\n' :: r),
            dropWhile_append_of_ne wsChar (c :: a1)
              (' ' :: '-' :: '\n' :: r) hall,
            lexSig_dropWs ((c :: a1) ++ ' ' :: r'),
            dropWhile_append_of_ne wsChar (c :: a1) (' ' :: r') hall]
          refine ih ((c :: a1).dropWhile wsChar) ?_ (cleanLine_dropWs hcl)
            r r' H
          rw [List.dropWhile_cons, if_pos hws]
          have := dropWhile_len_le wsChar a1
          omega
      · by_cases hcom : c = '/' ∧ a1.head? = some '*'
        · -- comment opened at the head, closed inside the line
          obtain ⟨rfl, hstar⟩ := hcom
          rcases cleanLine_cases hcl with hnil | ⟨rest, r0, heq, he, hc0⟩ |
            ⟨rest, r0, heq, hh, he, hc0⟩ | ⟨c', rest, heq, hne, hnc, hc0⟩
          · exact absurd hnil (by simp)
          · injection heq with h1 h2
            exact absurd h1 (by decide)
          · injection heq with h1 h2
            subst h2
            obtain ⟨a2, rfl⟩ : ∃ a2, a1 = '*' :: a2 := by
              match a1, hstar with
              | d :: a2, hstar =>
                exact ⟨a2, by rw [Option.some.inj hstar]⟩
            simp only [List.tail_cons] at he
            have hcap1 : comEnd (a2 ++ ' ' :: '-' :: '\n' :: r) =
                some (r0 ++ ' ' :: '-' :: '\n' :: r) :=
              comEnd_append a2 he (' ' :: '-' :: '\n' :: r)
            have hcap2 : comEnd (a2 ++ ' ' :: r') = some (r0 ++ ' ' :: r') :=
              comEnd_append a2 he (' ' :: r')
            show lexSig ('/' :: (('*' :: a2) ++ ' ' :: '-' :: '\n' :: r)) =
              lexSig ('/' :: (('*' :: a2) ++ ' ' :: r'))
            rw [lexSig_step
                (lexStep_comEx (u := ('*' :: a2) ++ ' ' :: '-' :: '\n' :: r)
                  rfl 0 0),
              lexSig_step
                (lexStep_comEx (u := ('*' :: a2) ++ ' ' :: r') rfl 0 0)]
            dsimp only
            simp only [List.cons_append, List.tail_cons]
            rw [skipComGo_rem (a2 ++ ' ' :: '-' :: '\n' :: r) 0 (0 + 2),
              hcap1, skipComGo_rem (a2 ++ ' ' :: r') 0 (0 + 2), hcap2]
            dsimp only
            have hlen0 : r0.length ≤ n := by
              have := comEnd_le he
              simp only [List.length_cons] at hle
              omega
            rw [ih r0 hlen0 hc0 r r' H]
          · injection heq with h1 h2
            subst h1
            subst h2
            exact absurd ⟨rfl, hstar⟩ hnc
        · by_cases hd : c = '-'
          · -- a '-' inside the line
            subst hd
            cases a1 with
            | nil =>
              have hstep1 : lexStep ⟨'-' :: (' ' :: '-' :: '\n' :: r), 0, 0⟩ =
                  some (none, ⟨' ' :: '-' :: '\n' :: r, 0, 0 + 1⟩) :=
                lexStep_elseEx (by decide)
                  (fun hx => absurd hx.1 (by decide))
                  (fun hx => by
                    rcases hx.2 with h | h | h
                    · exact absurd h (by simp)
                    · exact absurd (Option.some.inj h) (by decide)
                    · exact absurd (Option.some.inj h) (by decide))
                  (by decide) (by decide) (by decide) (by decide) 0 0
              have hstep2 : lexStep ⟨'-' :: (' ' :: r'), 0, 0⟩ =
                  some (none, ⟨' ' :: r', 0, 0 + 1⟩) :=
                lexStep_elseEx (by decide)
                  (fun hx => absurd hx.1 (by decide))
                  (fun hx => by
                    rcases hx.2 with h | h | h
                    · exact absurd h (by simp)
                    · exact absurd (Option.some.inj h) (by decide)
                    · exact absurd (Option.some.inj h) (by decide))
                  (by decide) (by decide) (by decide) (by decide) 0 0
              show lexSig ('-' :: (' ' :: '-' :: '\n' :: r)) =
                lexSig ('-' :: (' ' :: r'))
              rw [lexSig_step hstep1, lexSig_step hstep2]
              dsimp only
              rw [junction_base r r' H]
            | cons d a2 =>
              have hcl1 : CleanLine (d :: a2) :=
                cleanLine_other_inv hcl (by decide)
                  (fun hx => absurd hx.1 (by decide))
              have hlen1 : (d :: a2).length ≤ n := by
                simp only [List.length_cons] at hle ⊢
                omega
              show lexSig ('-' :: ((d :: a2) ++ ' ' :: '-' :: '\n' :: r)) =
                lexSig ('-' :: ((d :: a2) ++ ' ' :: r'))
              by_cases hnl : d = '\n' ∨ d = '\r'
              · have hh1 : ((d :: a2) ++ ' ' :: '-' :: '\n' :: r).head? =
                    none ∨
                    ((d :: a2) ++ ' ' :: '-' :: '\n' :: r).head? =
                      some '\n' ∨
                    ((d :: a2) ++ ' ' :: '-' :: '\n' :: r).head? =
                      some '\r' := by
                  rcases hnl with rfl | rfl
                  · exact Or.inr (Or.inl rfl)
                  · exact Or.inr (Or.inr rfl)
                have hh2 : ((d :: a2) ++ ' ' :: r').head? = none ∨
                    ((d :: a2) ++ ' ' :: r').head? = some '\n' ∨
                    ((d :: a2) ++ ' ' :: r').head? = some '\r' := by
                  rcases hnl with rfl | rfl
                  · exact Or.inr (Or.inl rfl)
                  · exact Or.inr (Or.inr rfl)
                rw [lexSig_step (lexStep_contEx hh1 0 0),
                  lexSig_step (lexStep_contEx hh2 0 0)]
                dsimp only
                rw [ih (d :: a2) hlen1 hcl1 r r' H]
              · have hc1 : ¬('-' = '-' ∧
                    (((d :: a2) ++ ' ' :: '-' :: '\n' :: r).head? = none ∨
                     ((d :: a2) ++ ' ' :: '-' :: '\n' :: r).head? =
                       some '\n' ∨
                     ((d :: a2) ++ ' ' :: '-' :: '\n' :: r).head? =
                       some '\r')) := by
                  intro hx
                  rcases hx.2 with h | h | h
                  · exact absurd h (by simp)
                  · exact hnl (Or.inl (Option.some.inj h))
                  · exact hnl (Or.inr (Option.some.inj h))
                have hc2 : ¬('-' = '-' ∧
                    (((d :: a2) ++ ' ' :: r').head? = none ∨
                     ((d :: a2) ++ ' ' :: r').head? = some '\n' ∨
                     ((d :: a2) ++ ' ' :: r').head? = some '\r')) := by
                  intro hx
                  rcases hx.2 with h | h | h
                  · exact absurd h (by simp)
                  · exact hnl (Or.inl (Option.some.inj h))
                  · exact hnl (Or.inr (Option.some.inj h))
                rw [lexSig_step (lexStep_elseEx (by decide)
                    (fun hx => absurd hx.1 (by decide)) hc1
                    (by decide) (by decide) (by decide) (by decide) 0 0),
                  lexSig_step (lexStep_elseEx (by decide)
                    (fun hx => absurd hx.1 (by decide)) hc2
                    (by decide) (by decide) (by decide) (by decide) 0 0)]
                dsimp only
                rw [ih (d :: a2) hlen1 hcl1 r r' H]
          · by_cases hlp : c = '('
            · subst hlp
              have hcl1 : CleanLine a1 :=
                cleanLine_other_inv hcl (by decide)
                  (fun hx => absurd hx.1 (by decide))
              show lexSig ('(' :: (a1 ++ ' ' :: '-' :: '\n' :: r)) =
                lexSig ('(' :: (a1 ++ ' ' :: r'))
              rw [lexSig_step
                  (lexStep_parenL (a1 ++ ' ' :: '-' :: '\n' :: r) 0 0),
                lexSig_step (lexStep_parenL (a1 ++ ' ' :: r') 0 0)]
              dsimp only
              rw [ih a1 (by omega) hcl1 r r' H]
            · by_cases hrp : c = ')'
              · subst hrp
                have hcl1 : CleanLine a1 :=
                  cleanLine_other_inv hcl (by decide)
                    (fun hx => absurd hx.1 (by decide))
                show lexSig (')' :: (a1 ++ ' ' :: '-' :: '\n' :: r)) =
                  lexSig (')' :: (a1 ++ ' ' :: r'))
                rw [lexSig_step
                    (lexStep_parenR (a1 ++ ' ' :: '-' :: '\n' :: r) 0 0),
                  lexSig_step (lexStep_parenR (a1 ++ ' ' :: r') 0 0)]
                dsimp only
                rw [ih a1 (by omega) hcl1 r r' H]
              · by_cases hq : c = Srv.quoteChar
                · -- string literal opened at the head, closed in the line
                  subst hq
                  rcases cleanLine_cases hcl with hnil |
                    ⟨rest, r0, heq, he, hc0⟩ |
                    ⟨rest, r0, heq, hh, he, hc0⟩ |
                    ⟨c', rest, heq, hne, hnc, hc0⟩
                  · exact absurd hnil (by simp)
                  · injection heq with h1 h2
                    subst h2
                    have hx1 : (' ' :: '-' :: '\n' :: r).head? ≠
                        some Srv.quoteChar := by
                      intro hh2
                      exact absurd (Option.some.inj hh2) (by decide)
                    have hx2 : (' ' :: r').head? ≠ some Srv.quoteChar := by
                      intro hh2
                      exact absurd (Option.some.inj hh2) (by decide)
                    obtain ⟨hv1, hr1⟩ :=
                      readStrGo_append a1 he (' ' :: '-' :: '\n' :: r) hx1 0 1 []
                    obtain ⟨hv2, hr2⟩ :=
                      readStrGo_append a1 he (' ' :: r') hx2 0 1 []
                    show lexSig
                        (Srv.quoteChar :: (a1 ++ ' ' :: '-' :: '\n' :: r)) =
                      lexSig (Srv.quoteChar :: (a1 ++ ' ' :: r'))
                    rw [lexSig_step
                        (lexStep_quoteEx (a1 ++ ' ' :: '-' :: '\n' :: r) 0 0),
                      lexSig_step (lexStep_quoteEx (a1 ++ ' ' :: r') 0 0)]
                    dsimp only
                    rw [hv1, hr1, hv2, hr2]
                    have hlen0 : r0.length ≤ n := by
                      have := strEnd_le he
                      omega
                    rw [ih r0 hlen0 hc0 r r' H]
                  · injection heq with h1 h2
                    exact absurd h1.symm (by decide)
                  · injection heq with h1 h2
                    exact absurd h1.symm hne
                · by_cases hid : identStart c
                  · -- identifier run
                    by_cases hall : (c :: a1).dropWhile identChar = []
                    · have ht1 := takeWhile_append_of_all identChar (c :: a1)
                        (' ' :: '-' :: '\n' :: r) hall
                      have ht2 := takeWhile_append_of_all identChar (c :: a1)
                        (' ' :: r') hall
                      have hd1 := dropWhile_append_of_all identChar (c :: a1)
                        (' ' :: '-' :: '\n' :: r) hall
                      have hd2 := dropWhile_append_of_all identChar (c :: a1)
                        (' ' :: r') hall
                      have htx1 : (' ' :: '-' :: '\n' :: r).takeWhile
                          identChar = [] := by
                        rw [List.takeWhile_cons, if_neg (by decide)]
                      have htx2 : (' ' :: r').takeWhile identChar = [] := by
                        rw [List.takeWhile_cons, if_neg (by decide)]
                      have hdx1 : (' ' :: '-' :: '\n' :: r).dropWhile
                          identChar = ' ' :: '-' :: '\n' :: r := by
                        rw [List.dropWhile_cons, if_neg (by decide)]
                      have hdx2 : (' ' :: r').dropWhile identChar =
                          ' ' :: r' := by
                        rw [List.dropWhile_cons, if_neg (by decide)]
                      show lexSig (c :: (a1 ++ ' ' :: '-' :: '\n' :: r)) =
                        lexSig (c :: (a1 ++ ' ' :: r'))
                      rw [lexSig_step
                          (lexStep_identEx hid (a1 ++ ' ' :: '-' :: '\n' :: r)
                            0 0),
                        lexSig_step
                          (lexStep_identEx hid (a1 ++ ' ' :: r') 0 0)]
                      dsimp only
                      rw [show c :: (a1 ++ ' ' :: '-' :: '\n' :: r) =
                          (c :: a1) ++ ' ' :: '-' :: '\n' :: r from rfl,
                        show c :: (a1 ++ ' ' :: r') =
                          (c :: a1) ++ ' ' :: r' from rfl,
                        ht1, htx1, hd1, hdx1, ht2, htx2, hd2, hdx2,
                        List.append_nil]
                      rw [junction_base r r' H]
                    · have ht1 := takeWhile_append_of_ne identChar (c :: a1)
                        (' ' :: '-' :: '\n' :: r) hall
                      have ht2 := takeWhile_append_of_ne identChar (c :: a1)
                        (' ' :: r') hall
                      have hd1 := dropWhile_append_of_ne identChar (c :: a1)
                        (' ' :: '-' :: '\n' :: r) hall
                      have hd2 := dropWhile_append_of_ne identChar (c :: a1)
                        (' ' :: r') hall
                      show lexSig (c :: (a1 ++ ' ' :: '-' :: '\n' :: r)) =
                        lexSig (c :: (a1 ++ ' ' :: r'))
                      rw [lexSig_step
                          (lexStep_identEx hid (a1 ++ ' ' :: '-' :: '\n' :: r)
                            0 0),
                        lexSig_step
                          (lexStep_identEx hid (a1 ++ ' ' :: r') 0 0)]
                      dsimp only
                      rw [show c :: (a1 ++ ' ' :: '-' :: '\n' :: r) =
                          (c :: a1) ++ ' ' :: '-' :: '\n' :: r from rfl,
                        show c :: (a1 ++ ' ' :: r') =
                          (c :: a1) ++ ' ' :: r' from rfl,
                        ht1, hd1, ht2, hd2]
                      have hlen1 : ((c :: a1).dropWhile identChar).length ≤
                          n := by
                        rw [List.dropWhile_cons,
                          if_pos (identStart_identChar hid)]
                        have := dropWhile_len_le identChar a1
                        omega
                      rw [ih ((c :: a1).dropWhile identChar) hlen1
                        (cleanLine_dropIdent hcl) r r' H]
                  · -- unrecognized character: silently skipped
                    have hcl1 : CleanLine a1 :=
                      cleanLine_other_inv hcl hq hcom
                    have hcom1 : ¬(c = '/' ∧
                        (a1 ++ ' ' :: '-' :: '\n' :: r).head? = some '*') := by
                      intro hx
                      cases a1 with
                      | nil => exact absurd (Option.some.inj hx.2) (by decide)
                      | cons d a2 => exact hcom ⟨hx.1, hx.2⟩
                    have hcom2 : ¬(c = '/' ∧
                        (a1 ++ ' ' :: r').head? = some '*') := by
                      intro hx
                      cases a1 with
                      | nil => exact absurd (Option.some.inj hx.2) (by decide)
                      | cons d a2 => exact hcom ⟨hx.1, hx.2⟩
                    show lexSig (c :: (a1 ++ ' ' :: '-' :: '\n' :: r)) =
                      lexSig (c :: (a1 ++ ' ' :: r'))
                    rw [lexSig_step (lexStep_elseEx hws hcom1
                        (fun hx => hd hx.1) hlp hrp hq hid 0 0),
                      lexSig_step (lexStep_elseEx hws hcom2
                        (fun hx => hd hx.1) hlp hrp hq hid 0 0)]
                    dsimp only
                    rw [ih a1 (by omega) hcl1 r r' H]

end Ex

namespace Ex

/-- Join lines with trailing `-` continuation markers (`line -\nline`). -/
def joinCont : List (List Char) → List Char
  | [] => []
  | [l] => l
  | l :: ls => l ++ ' ' :: '-' :: '\n' :: joinCont ls

/-- Join the same lines on one physical line with space separators. -/
def joinSpace : List (List Char) → List Char
  | [] => []
  | [l] => l
  | l :: ls => l ++ ' ' :: joinSpace ls

theorem joinSig : ∀ (ls : List (List Char)), (∀ l ∈ ls, CleanLine l) →
    lexSig (joinCont ls) = lexSig (joinSpace ls) := by
  intro ls
  induction ls with
  | nil => intro _; rfl
  | cons l tl ih =>
    intro h
    cases tl with
    | nil => rfl
    | cons l2 tl2 =>
      exact junction_aux l.length l le_rfl (h l (by simp)) _ _
        (ih (fun x hx => h x (by simp [hx])))

end Ex

namespace Ex

theorem currentTok_cons_cons (t u : Tok) (ul : List Tok) (p : Nat) :
    currentTok (t :: u :: ul) (p + 1) = currentTok (u :: ul) p := by
  simp [currentTok, List.getLastD_cons]

theorem currentTok_one (t : Tok) (p : Nat) : currentTok [t] (p + 1) = t := by
  simp [currentTok]

/-- `current()` sees position-erased-equal tokens on signature-equal
token lists. -/
theorem currentTok_sig : ∀ (ft1 ft2 : List Tok),
    ft1.map sigT = ft2.map sigT →
    ∀ pos, sigT (currentTok ft1 pos) = sigT (currentTok ft2 pos) := by
  intro ft1
  induction ft1 with
  | nil =>
    intro ft2 h pos
    cases ft2 with
    | nil => rfl
    | cons t2 tl2 => simp at h
  | cons t tl ih =>
    intro ft2 h pos
    cases ft2 with
    | nil => simp at h
    | cons t2 tl2 =>
      simp only [List.map_cons, List.cons.injEq] at h
      obtain ⟨hts, htl⟩ := h
      cases pos with
      | zero => exact hts
      | succ p =>
        cases tl with
        | nil =>
          cases tl2 with
          | nil => rw [currentTok_one, currentTok_one]; exact hts
          | cons => simp at htl
        | cons u ul =>
          cases tl2 with
          | nil => simp at htl
          | cons u2 ul2 =>
            rw [currentTok_cons_cons, currentTok_cons_cons]
            exact ih (u2 :: ul2) htl p

/-- Parse results related up to error positions: both out of fuel, both
errors, or equal successes. -/
def resRel {α : Type} : Option (Except PErr α) → Option (Except PErr α) →
    Prop
  | none, none => True
  | some (.error _), some (.error _) => True
  | some (.ok a), some (.ok b) => a = b
  | _, _ => False

theorem resRel_cases {α : Type} {x y : Option (Except PErr α)}
    (h : resRel x y) :
    (x = none ∧ y = none) ∨
    (∃ e1 e2, x = some (.error e1) ∧ y = some (.error e2)) ∨
    (∃ a, x = some (.ok a) ∧ y = some (.ok a)) := by
  match x, y, h with
  | none, none, _ => exact Or.inl ⟨rfl, rfl⟩
  | some (.error e1), some (.error e2), _ =>
    exact Or.inr (Or.inl ⟨e1, e2, rfl, rfl⟩)
  | some (.ok a), some (.ok b), h => cases h; exact Or.inr (Or.inr ⟨a, rfl, rfl⟩)

theorem expect_rel {ft1 ft2 : List Tok} (hsig : ft1.map sigT = ft2.map sigT)
    (pos : Nat) (tt : TokType) :
    (∃ e1 e2, expect ft1 pos tt = .error e1 ∧ expect ft2 pos tt = .error e2) ∨
    (expect ft1 pos tt = .ok (pos + 1) ∧ expect ft2 pos tt = .ok (pos + 1)) := by
  have ht : (currentTok ft1 pos).type = (currentTok ft2 pos).type :=
    congrArg Prod.fst (currentTok_sig ft1 ft2 hsig pos)
  rw [expect, expect]
  by_cases h : (currentTok ft1 pos).type = tt
  · rw [if_pos h, if_pos (by rw [← ht]; exact h)]
    exact Or.inr ⟨rfl, rfl⟩
  · rw [if_neg h, if_neg (by rw [← ht]; exact h)]
    exact Or.inl ⟨_, _, rfl, rfl⟩

theorem pvl_rel {ft1 ft2 : List Tok} (hsig : ft1.map sigT = ft2.map sigT)
    (fuel : Nat)
    (hvl : ∀ pos vals, resRel (valueLoop fuel ft1 pos vals)
      (valueLoop fuel ft2 pos vals)) :
    ∀ pos, resRel (parse_value_list fuel ft1 pos)
      (parse_value_list fuel ft2 pos) := by
  intro pos
  rw [parse_value_list, parse_value_list]
  rcases expect_rel hsig pos .LPAREN with ⟨e1, e2, he1, he2⟩ | ⟨he1, he2⟩
  · rw [he1, he2]
    exact trivial
  · rw [he1, he2]
    dsimp only
    rcases resRel_cases (hvl (pos + 1) []) with ⟨h1, h2⟩ |
      ⟨e1, e2, h1, h2⟩ | ⟨⟨vals, pos2⟩, h1, h2⟩
    · rw [h1, h2]
      exact trivial
    · rw [h1, h2]
      exact trivial
    · rw [h1, h2]
      dsimp only
      rcases expect_rel hsig pos2 .RPAREN with ⟨e1, e2, he1, he2⟩ |
        ⟨he1, he2⟩
      · rw [he1, he2]
        exact trivial
      · rw [he1, he2]
        exact rfl

end Ex

namespace Ex

/-- The parser is driven only by token kinds and values: on two token
lists with equal signatures every loop of the parser produces related
results (equal successes, simultaneous errors, simultaneous fuel
exhaustion). -/
theorem parser_sim (ft1 ft2 : List Tok) (hsig : ft1.map sigT = ft2.map sigT) :
    ∀ fuel,
    (∀ pos vals, resRel (valueLoop fuel ft1 pos vals)
      (valueLoop fuel ft2 pos vals)) ∧
    (∀ pos seg, resRel (segLoop fuel ft1 pos seg)
      (segLoop fuel ft2 pos seg)) ∧
    (∀ pos name, resRel (parse_segment fuel ft1 pos name)
      (parse_segment fuel ft2 pos name)) ∧
    (∀ pos cmd, resRel (kwLoop fuel ft1 pos cmd)
      (kwLoop fuel ft2 pos cmd)) := by
  intro fuel
  induction fuel with
  | zero =>
    exact ⟨fun _ _ => trivial, fun _ _ => trivial, fun _ _ => trivial,
      fun _ _ => trivial⟩
  | succ n ih =>
    obtain ⟨ihv, ihs, ihp, ihk⟩ := ih
    have hpvl := pvl_rel hsig n ihv
    refine ⟨?_, ?_, ?_, ?_⟩
    · -- valueLoop
      intro pos vals
      have hsigc := currentTok_sig ft1 ft2 hsig pos
      have ht : (currentTok ft1 pos).type = (currentTok ft2 pos).type :=
        congrArg Prod.fst hsigc
      have hv : (currentTok ft1 pos).value = (currentTok ft2 pos).value :=
        congrArg Prod.snd hsigc
      rw [valueLoop, valueLoop]
      by_cases h1 : (currentTok ft1 pos).type = .RPAREN
      · have h1b : (currentTok ft2 pos).type = .RPAREN := by
          rw [← ht]; exact h1
        rw [if_pos h1, if_pos h1b]
        exact rfl
      · have h1b : ¬(currentTok ft2 pos).type = .RPAREN := by
          rw [← ht]; exact h1
        rw [if_neg h1, if_neg h1b]
        by_cases h2 : (currentTok ft1 pos).type = .IDENTIFIER ∨
            (currentTok ft1 pos).type = .STRING ∨
            (currentTok ft1 pos).type = .NUMBER ∨
            (currentTok ft1 pos).type = .KEYWORD
        · have h2b : (currentTok ft2 pos).type = .IDENTIFIER ∨
              (currentTok ft2 pos).type = .STRING ∨
              (currentTok ft2 pos).type = .NUMBER ∨
              (currentTok ft2 pos).type = .KEYWORD := by
            rw [← ht]; exact h2
          rw [if_pos h2, if_pos h2b, hv]
          exact ihv (pos + 1) _
        · have h2b : ¬((currentTok ft2 pos).type = .IDENTIFIER ∨
              (currentTok ft2 pos).type = .STRING ∨
              (currentTok ft2 pos).type = .NUMBER ∨
              (currentTok ft2 pos).type = .KEYWORD) := by
            rw [← ht]; exact h2
          rw [if_neg h2, if_neg h2b]
          exact rfl
    · -- segLoop
      intro pos seg
      have hsigc := currentTok_sig ft1 ft2 hsig pos
      have ht : (currentTok ft1 pos).type = (currentTok ft2 pos).type :=
        congrArg Prod.fst hsigc
      have hv : (currentTok ft1 pos).value = (currentTok ft2 pos).value :=
        congrArg Prod.snd hsigc
      have ht1 : (currentTok ft1 (pos + 1)).type =
          (currentTok ft2 (pos + 1)).type :=
        congrArg Prod.fst (currentTok_sig ft1 ft2 hsig (pos + 1))
      rw [segLoop, segLoop]
      by_cases h1 : (currentTok ft1 pos).type = .RPAREN
      · have h1b : (currentTok ft2 pos).type = .RPAREN := by
          rw [← ht]; exact h1
        rw [if_pos h1, if_pos h1b]
        exact rfl
      · have h1b : ¬(currentTok ft2 pos).type = .RPAREN := by
          rw [← ht]; exact h1
        rw [if_neg h1, if_neg h1b]
        by_cases h2 : (currentTok ft1 pos).type = .KEYWORD
        · have h2b : (currentTok ft2 pos).type = .KEYWORD := by
            rw [← ht]; exact h2
          rw [if_pos h2, if_pos h2b]
          by_cases h3 : (currentTok ft1 pos).value ∈ FLAG_KEYWORDS
          · have h3b : (currentTok ft2 pos).value ∈ FLAG_KEYWORDS := by
              rw [← hv]; exact h3
            rw [if_pos h3, if_pos h3b, hv]
            exact ihs (pos + 1) _
          · have h3b : ¬(currentTok ft2 pos).value ∈ FLAG_KEYWORDS := by
              rw [← hv]; exact h3
            rw [if_neg h3, if_neg h3b]
            by_cases h4 : (currentTok ft1 (pos + 1)).type = .LPAREN
            · have h4b : (currentTok ft2 (pos + 1)).type = .LPAREN := by
                rw [← ht1]; exact h4
              rw [if_pos h4, if_pos h4b]
              by_cases h5 : (currentTok ft1 pos).value ∈ SEGMENT_NAMES
              · have h5b : (currentTok ft2 pos).value ∈ SEGMENT_NAMES := by
                  rw [← hv]; exact h5
                rw [if_pos h5, if_pos h5b, hv]
                rcases resRel_cases
                    (ihp (pos + 1) (currentTok ft2 pos).value) with
                  ⟨ha, hb⟩ | ⟨e1, e2, ha, hb⟩ | ⟨⟨sub, pos2⟩, ha, hb⟩
                · rw [ha, hb]
                  exact trivial
                · rw [ha, hb]
                  exact trivial
                · rw [ha, hb]
                  exact ihs pos2 _
              · have h5b : ¬(currentTok ft2 pos).value ∈ SEGMENT_NAMES := by
                  rw [← hv]; exact h5
                rw [if_neg h5, if_neg h5b, hv]
                rcases resRel_cases (hpvl (pos + 1)) with
                  ⟨ha, hb⟩ | ⟨e1, e2, ha, hb⟩ | ⟨⟨vals, pos2⟩, ha, hb⟩
                · rw [ha, hb]
                  exact trivial
                · rw [ha, hb]
                  exact trivial
                · rw [ha, hb]
                  exact ihs pos2 _
            · have h4b : ¬(currentTok ft2 (pos + 1)).type = .LPAREN := by
                rw [← ht1]; exact h4
              rw [if_neg h4, if_neg h4b]
              exact ihs (pos + 1) seg
        · have h2b : ¬(currentTok ft2 pos).type = .KEYWORD := by
            rw [← ht]; exact h2
          rw [if_neg h2, if_neg h2b]
          by_cases h6 : (currentTok ft1 pos).type = .EOF
          · have h6b : (currentTok ft2 pos).type = .EOF := by
              rw [← ht]; exact h6
            rw [if_pos h6, if_pos h6b]
            exact rfl
          · have h6b : ¬(currentTok ft2 pos).type = .EOF := by
              rw [← ht]; exact h6
            rw [if_neg h6, if_neg h6b]
            exact ihs (pos + 1) seg
    · -- parse_segment
      intro pos name
      rw [parse_segment, parse_segment]
      rcases expect_rel hsig pos .LPAREN with ⟨e1, e2, he1, he2⟩ |
        ⟨he1, he2⟩
      · rw [he1, he2]
        exact trivial
      · rw [he1, he2]
        dsimp only
        rcases resRel_cases (ihs (pos + 1) ⟨name, []⟩) with
          ⟨ha, hb⟩ | ⟨e1, e2, ha, hb⟩ | ⟨⟨seg, pos2⟩, ha, hb⟩
        · rw [ha, hb]
          exact trivial
        · rw [ha, hb]
          exact trivial
        · rw [ha, hb]
          dsimp only
          rcases expect_rel hsig pos2 .RPAREN with ⟨e1, e2, he3, he4⟩ |
            ⟨he3, he4⟩
          · rw [he3, he4]
            exact trivial
          · rw [he3, he4]
            exact rfl
    · -- kwLoop
      intro pos cmd
      have hsigc := currentTok_sig ft1 ft2 hsig pos
      have ht : (currentTok ft1 pos).type = (currentTok ft2 pos).type :=
        congrArg Prod.fst hsigc
      have hv : (currentTok ft1 pos).value = (currentTok ft2 pos).value :=
        congrArg Prod.snd hsigc
      have ht1 : (currentTok ft1 (pos + 1)).type =
          (currentTok ft2 (pos + 1)).type :=
        congrArg Prod.fst (currentTok_sig ft1 ft2 hsig (pos + 1))
      rw [kwLoop, kwLoop]
      by_cases h1 : (currentTok ft1 pos).type = .EOF
      · have h1b : (currentTok ft2 pos).type = .EOF := by
          rw [← ht]; exact h1
        rw [if_pos h1, if_pos h1b]
        exact rfl
      · have h1b : ¬(currentTok ft2 pos).type = .EOF := by
          rw [← ht]; exact h1
        rw [if_neg h1, if_neg h1b]
        by_cases h2 : (currentTok ft1 pos).type = .KEYWORD
        · have h2b : (currentTok ft2 pos).type = .KEYWORD := by
            rw [← ht]; exact h2
          rw [if_pos h2, if_pos h2b]
          by_cases h3 : (currentTok ft1 pos).value ∈ FLAG_KEYWORDS
          · have h3b : (currentTok ft2 pos).value ∈ FLAG_KEYWORDS := by
              rw [← hv]; exact h3
            rw [if_pos h3, if_pos h3b, hv]
            exact ihk (pos + 1) _
          · have h3b : ¬(currentTok ft2 pos).value ∈ FLAG_KEYWORDS := by
              rw [← hv]; exact h3
            rw [if_neg h3, if_neg h3b]
            by_cases h5 : (currentTok ft1 pos).value ∈ SEGMENT_NAMES
            · have h5b : (currentTok ft2 pos).value ∈ SEGMENT_NAMES := by
                rw [← hv]; exact h5
              rw [if_pos h5, if_pos h5b, hv]
              rcases resRel_cases
                  (ihp (pos + 1) (currentTok ft2 pos).value) with
                ⟨ha, hb⟩ | ⟨e1, e2, ha, hb⟩ | ⟨⟨seg, pos2⟩, ha, hb⟩
              · rw [ha, hb]
                exact trivial
              · rw [ha, hb]
                exact trivial
              · rw [ha, hb]
                exact ihk pos2 _
            · have h5b : ¬(currentTok ft2 pos).value ∈ SEGMENT_NAMES := by
                rw [← hv]; exact h5
              rw [if_neg h5, if_neg h5b]
              by_cases h4 : (currentTok ft1 (pos + 1)).type = .LPAREN
              · have h4b : (currentTok ft2 (pos + 1)).type = .LPAREN := by
                  rw [← ht1]; exact h4
                rw [if_pos h4, if_pos h4b, hv]
                rcases resRel_cases (hpvl (pos + 1)) with
                  ⟨ha, hb⟩ | ⟨e1, e2, ha, hb⟩ | ⟨⟨vals, pos2⟩, ha, hb⟩
                · rw [ha, hb]
                  exact trivial
                · rw [ha, hb]
                  exact trivial
                · rw [ha, hb]
                  exact ihk pos2 _
              · have h4b : ¬(currentTok ft2 (pos + 1)).type = .LPAREN := by
                  rw [← ht1]; exact h4
                rw [if_neg h4, if_neg h4b]
                exact ihk (pos + 1) cmd
        · have h2b : ¬(currentTok ft2 pos).type = .KEYWORD := by
            rw [← ht]; exact h2
          rw [if_neg h2, if_neg h2b]
          exact ihk (pos + 1) cmd

theorem parse_rel (ft1 ft2 : List Tok) (hsig : ft1.map sigT = ft2.map sigT)
    (fuel : Nat) : resRel (parse fuel ft1) (parse fuel ft2) := by
  obtain ⟨hv', hs', hp', hk'⟩ := parser_sim ft1 ft2 hsig fuel
  have ht : (currentTok ft1 0).type = (currentTok ft2 0).type :=
    congrArg Prod.fst (currentTok_sig ft1 ft2 hsig 0)
  rw [parse, parse]
  by_cases hcmd : (currentTok ft1 0).type = .COMMAND
  · have hcmdb : (currentTok ft2 0).type = .COMMAND := by
      rw [← ht]; exact hcmd
    rw [if_neg (not_not_intro hcmd), if_neg (not_not_intro hcmdb)]
    rcases resRel_cases (pvl_rel hsig fuel hv' 1) with
      ⟨ha, hb⟩ | ⟨e1, e2, ha, hb⟩ | ⟨⟨userids, pos1⟩, ha, hb⟩
    · rw [ha, hb]
      exact trivial
    · rw [ha, hb]
      exact trivial
    · rw [ha, hb]
      exact hk' pos1 _
  · have hcmdb : ¬(currentTok ft2 0).type = .COMMAND := by
      rw [← ht]; exact hcmd
    rw [if_pos hcmd, if_pos hcmdb]
    exact trivial

theorem parse_adduser_rel {src1 src2 : List Char}
    (h : lexSig src1 = lexSig src2) :
    resRel (parse_adduser src1) (parse_adduser src2) := by
  rw [parse_adduser, parse_adduser, tokenize_eq_tokRun src1,
    tokenize_eq_tokRun src2]
  dsimp only
  have hsig : (filterCont (tokRun ⟨src1, 1, 1⟩)).map sigT =
      (filterCont (tokRun ⟨src2, 1, 1⟩)).map sigT :=
    (lexSig_eq src1 1 1).trans (h.trans (lexSig_eq src2 1 1).symm)
  have hlen : (filterCont (tokRun ⟨src1, 1, 1⟩)).length =
      (filterCont (tokRun ⟨src2, 1, 1⟩)).length := by
    have h2 := congrArg List.length hsig
    simpa using h2
  rw [hlen]
  exact parse_rel _ _ hsig _

end Ex

namespace Ex

/-- A line containing neither quote nor slash characters is clean. -/
theorem cleanLine_of_plain : ∀ (l : List Char),
    (∀ c ∈ l, c ≠ Srv.quoteChar ∧ c ≠ '/') → CleanLine l := by
  intro l
  induction l with
  | nil => intro _; exact .nil
  | cons c rest ih =>
    intro h
    exact .other c rest (h c (by simp)).1
      (fun hx => (h c (by simp)).2 hx.1)
      (ih (fun d hd => h d (by simp [hd])))

end Ex

/-- C5: a command split across physical lines joined by trailing `-`
continuation markers lexes to the same continuation-free token signature
(same kinds and values, positions aside) as the same command written on
one physical line with space separators, provided every string literal
and comment opened on a line closes on that line; consequently the parser
produces the same AST: it succeeds with a given command on the split form
exactly when it does on the one-line form. -/
theorem Ex.continuation_folding (ls : List (List Char))
    (hclean : ∀ l ∈ ls, Ex.CleanLine l) :
    (∃ ts1 ts2, Ex.tokenize (Ex.joinCont ls) = some ts1 ∧
      Ex.tokenize (Ex.joinSpace ls) = some ts2 ∧ Ex.fsig ts1 = Ex.fsig ts2) ∧
    (∀ cmd, Ex.parse_adduser (Ex.joinCont ls) = some (.ok cmd) ↔
      Ex.parse_adduser (Ex.joinSpace ls) = some (.ok cmd)) := by
  have hsig := Ex.joinSig ls hclean
  constructor
  · exact ⟨_, _, Ex.tokenize_eq_tokRun _, Ex.tokenize_eq_tokRun _,
      (Ex.lexSig_eq _ 1 1).trans (hsig.trans (Ex.lexSig_eq _ 1 1).symm)⟩
  · intro cmd
    have hrel := Ex.parse_adduser_rel hsig
    rcases Ex.resRel_cases hrel with ⟨h1, h2⟩ | ⟨e1, e2, h1, h2⟩ |
      ⟨a, h1, h2⟩
    · rw [h1, h2]
    · rw [h1, h2]
      simp
    · rw [h1, h2]

/-- Witness for C5 on `AU (X) -\nSPECIAL` versus `AU (X) SPECIAL`: both
parse to the command with userid `X` and flag `SPECIAL`, the equivalence
being transported through the claim theorem. -/
theorem Ex.continuation_folding_witness :
    Ex.parse_adduser
        (Ex.joinCont ["AU (X)".toList, "SPECIAL".toList]) =
      some (.ok ⟨["X".toList], [], [], ["SPECIAL".toList]⟩) ∧
    Ex.parse_adduser
        (Ex.joinSpace ["AU (X)".toList, "SPECIAL".toList]) =
      some (.ok ⟨["X".toList], [], [], ["SPECIAL".toList]⟩) :=
  ⟨by rfl,
   ((Ex.continuation_folding ["AU (X)".toList, "SPECIAL".toList]
      (by
        intro l hl
        simp only [List.mem_cons, List.not_mem_nil, or_false] at hl
        rcases hl with rfl | rfl
        · exact Ex.cleanLine_of_plain _ (by decide)
        · exact Ex.cleanLine_of_plain _ (by decide))).2
    ⟨["X".toList], [], [], ["SPECIAL".toList]⟩).mp (by rfl)⟩
